import Mathlib

/-!
Verification of the cipher-solver core in `src/main.rs`.

Texts are modelled as `List Char`; for the ASCII inputs the program is meant
for, the character count coincides with the byte length `text.len()` used by
the Rust code.  Machine integers (`usize`, `u8`) are modelled as `Nat`; every
place where wrap-around could differ is covered by an explicit hypothesis.
Fallible code (Rust panics, undefined f32 values) is modelled with `Option`,
`none` marking the fault.
-/

namespace CipherSolver

/-- Common trigrams table with weights (main.rs lines 13 to 34). -/
def COMMON_TRIGRAMS : List (List Char × Nat) :=
  [("the".toList, 100), ("and".toList, 80), ("ing".toList, 70), ("ent".toList, 60),
   ("ion".toList, 55), ("her".toList, 50), ("for".toList, 45), ("tha".toList, 40),
   ("nth".toList, 35), ("int".toList, 30), ("ere".toList, 25), ("tio".toList, 25),
   ("ter".toList, 25), ("est".toList, 25), ("ers".toList, 25), ("ati".toList, 25),
   ("hat".toList, 25), ("ate".toList, 25), ("all".toList, 25), ("eth".toList, 25)]

/-- Common bigrams table with weights (main.rs lines 40 to 56). -/
def COMMON_BIGRAMS : List (List Char × Nat) :=
  [("th".toList, 100), ("he".toList, 90), ("in".toList, 80), ("er".toList, 70),
   ("an".toList, 60), ("re".toList, 50), ("on".toList, 45), ("at".toList, 40),
   ("en".toList, 35), ("nd".toList, 30), ("ti".toList, 30), ("es".toList, 30),
   ("or".toList, 30), ("te".toList, 30), ("of".toList, 30)]

/-- Common words table with weights (main.rs lines 59 to 90). -/
def COMMON_WORDS : List (List Char × Nat) :=
  [("the".toList, 300), ("be".toList, 270), ("to".toList, 240), ("of".toList, 210),
   ("and".toList, 180), ("a".toList, 165), ("in".toList, 150), ("that".toList, 135),
   ("have".toList, 120), ("i".toList, 105), ("it".toList, 90), ("for".toList, 90),
   ("not".toList, 90), ("on".toList, 90), ("with".toList, 90), ("he".toList, 90),
   ("as".toList, 90), ("you".toList, 90), ("do".toList, 90), ("at".toList, 90),
   ("this".toList, 90), ("but".toList, 90), ("his".toList, 90), ("by".toList, 90),
   ("from".toList, 90), ("they".toList, 90), ("we".toList, 90), ("say".toList, 90),
   ("her".toList, 90), ("she".toList, 90)]

/-- Character frequency table with weights (main.rs lines 93 to 106). -/
def CHAR_FREQUENCIES : List (Char × Nat) :=
  [('e', 100), ('t', 90), ('a', 80), ('o', 75), ('i', 70), ('n', 65),
   ('s', 60), ('h', 55), ('r', 50), ('d', 45), ('l', 40), ('c', 35)]

/-- ASCII lowercasing of one character; models `str::to_lowercase` on the
ASCII texts the program handles. -/
def asciiLower (c : Char) : Char :=
  if 65 ≤ c.toNat ∧ c.toNat ≤ 90 then Char.ofNat (c.toNat + 32) else c

/-- Fuel-based scanner for countMatches; the fuel bounds the text length so
the recursion is structural and the kernel can evaluate it.  At each
position, a nonempty pattern match consumes the whole match (disjoint
occurrences), otherwise the scan advances one character. -/
def countMatchesAux (pat : List Char) : Nat → List Char → Nat
  | _, [] => 0
  | 0, _ :: _ => 0
  | fuel + 1, c :: rest =>
    if pat ≠ [] ∧ pat.isPrefixOf (c :: rest) then
      1 + countMatchesAux pat fuel ((c :: rest).drop pat.length)
    else
      countMatchesAux pat fuel rest

/-- Number of disjoint, leftmost-first occurrences of `pat` in a text;
models `str::matches(pat).count()` for a nonempty pattern. -/
def countMatches (pat s : List Char) : Nat := countMatchesAux pat s.length s

/-- The scoring function `Decrypter::english_score` (main.rs lines 974 to
1004): case-fold the text, then accumulate occurrence count times weight over
the trigram, bigram, word and character-frequency tables.  The character loop
`text_chars.iter().filter(|x| x == c).count()` is `List.count`. -/
def english_score (text : List Char) : Nat :=
  let text := text.map asciiLower
  let score := 0
  let score := COMMON_TRIGRAMS.foldl (fun s p => s + countMatches p.1 text * p.2) score
  let score := COMMON_BIGRAMS.foldl (fun s p => s + countMatches p.1 text * p.2) score
  let score := COMMON_WORDS.foldl (fun s p => s + countMatches p.1 text * p.2) score
  let score := CHAR_FREQUENCIES.foldl (fun s p => s + text.count p.1 * p.2) score
  score

/-- Decryption mapping applied to the text for one key candidate by
`Decrypter::decrypt_vigenere` (main.rs lines 703 to 714): each ASCII
alphabetic character is shifted back by the key entry selected by the global
character index modulo the period, relative to its own case base; any other
character is pushed through unchanged (but still occupies its index). -/
def vigenere_apply (key : List Nat) (period : Nat) (text : List Char) : List Char :=
  text.enum.map (fun p =>
    if p.2.isAlpha then
      let shift := key.getD (p.1 % period) 0
      let base := if p.2.isUpper then 65 else 97
      Char.ofNat ((p.2.toNat - base + 26 - shift) % 26 + base)
    else p.2)

/-- Decryption mapping applied to the text for one key candidate by
`Decrypter::decrypt_beaufort` (main.rs lines 819 to 830): the Beaufort rule
key minus ciphertext, case preserved, non-alphabetic characters unchanged. -/
def beaufort_apply (key : List Nat) (period : Nat) (text : List Char) : List Char :=
  text.enum.map (fun p =>
    if p.2.isAlpha then
      let shift := key.getD (p.1 % period) 0
      let base := if p.2.isUpper then 65 else 97
      Char.ofNat ((shift + 26 - (p.2.toNat - base)) % 26 + base)
    else p.2)

/-- Fuel-based chunking; the fuel bounds the text length so the recursion is
structural and the kernel can evaluate it. -/
def chunksOfAux (p : Nat) : Nat → List Char → List (List Char)
  | _, [] => []
  | 0, _ :: _ => []
  | fuel + 1, a :: l => (a :: l).take p :: chunksOfAux p fuel ((a :: l).drop p)

/-- Chunks of size p of a list, as Rust `slice::chunks(p)` for p above 0; the
p = 0 guard is never used because periodic_inv models the chunks(0) panic
before calling this. -/
def chunksOf (p : Nat) (l : List Char) : List (List Char) :=
  if p = 0 then [] else chunksOfAux p l.length l

/-- The in-chunk permutation loop of periodic_inv (main.rs lines 923 to 925):
chunk_vec[key[i]] = chunk[i]; a key entry outside the chunk is an index
panic, modelled as none.  The read chunk[i] has i below the key length, which
equals the chunk length whenever this is called. -/
def applyPermChunk (key : List Nat) (chunk : List Char) : Option (List Char) :=
  key.enum.foldl (fun acc p =>
    acc.bind (fun cv =>
      if p.2 < cv.length then some (cv.set p.2 (chunk.getD p.1 '\x00')) else none))
    (some chunk)

/-- periodic_inv (main.rs lines 912 to 934): the text is cut into chunks of
the key length; complete chunks are permuted in place, the trailing partial
chunk is appended unchanged.  Returns none when the Rust code panics:
chunks(0) for a zero-length key, or an out-of-range key entry. -/
def periodic_inv (text : List Char) (key : List Nat) : Option (List Char) :=
  if key.length = 0 then none
  else
    (chunksOf key.length text).foldl (fun acc chunk =>
      acc.bind (fun result =>
        if chunk.length = key.length then
          (applyPermChunk key chunk).map (fun cv => result ++ cv)
        else
          some (result ++ chunk)))
      (some [])

/-- Row count of the block for a column: s+1 for the columns carrying an
extra row (col < r), s otherwise (main.rs line 958). -/
def rowLenF (s r col : Nat) : Nat := if col < r then s + 1 else s

/-- Output position of the row-th character of the block of column col
(main.rs lines 963 and 965): col*s + row + adjustment in the transpose
layout, row*L + col in the default layout. -/
def placeF (transpose : Bool) (k_l s_l r col row : Nat) : Nat :=
  if transpose then col * s_l + row + (if col < r then col else r) else row * k_l + col

/-- Inverse key construction: key_inv[key[i]] = i (main.rs lines 951 to 954). -/
def key_inv_of (key : List Nat) : List Nat :=
  key.enum.foldl (fun acc p => acc.set p.2 p.1) (List.replicate key.length 0)

/-- Processing of one column in columnar_inv (main.rs lines 957 to 968): the
block of rowLenF characters at the running offset is scattered to its output
positions, and the offset advances by the block length. -/
def colStep (transpose : Bool) (k_l s_l r : Nat) (chars : List Char)
    (st : List Char × Nat) (col : Nat) : List Char × Nat :=
  ((List.range (rowLenF s_l r col)).foldl
      (fun out row =>
        out.set (placeF transpose k_l s_l r col row) (chars.getD (st.2 + row) '\x00'))
      st.1,
   st.2 + rowLenF s_l r col)

/-- columnar_inv (main.rs lines 936 to 972): with n the text length, L the
key length, s = n / L and r = n mod L, iterate over key_inv with an advancing
cursor, scattering each block into the output buffer.  The List.set writes
are in bounds for permutation keys (proved below); the Rust chars[c_index]
indexing likewise stays in bounds there, so getD with a dummy default is
faithful. -/
def columnar_inv (text : List Char) (key : List Nat) (transpose : Bool) : List Char :=
  let n := text.length
  let k_l := key.length
  ((key_inv_of key).foldl (colStep transpose k_l (n / k_l) (n % k_l) text)
    (List.replicate n '\x00', 0)).1

/-- Modelled from the spec: the reference forward columnar transposition is
absent from the program (the program only decrypts).  Following section 8 of
the spec, the plaintext is written into a row-major grid of L columns and the
columns are read out in the order given by K: column c is emitted as block
K[c] of the ciphertext, so block idx is column Kinv[idx], which is exactly
the reading that the Kinv of section 4.1 undoes.  Used for texts whose
length is a multiple of L, as in the round-trip claim. -/
def columnar_fwd (text : List Char) (key : List Nat) : List Char :=
  (List.range key.length).flatMap (fun idx =>
    (List.range (text.length / key.length)).map
      (fun row => text.getD (row * key.length + key.indexOf idx) '\x00'))

/-- All insertions of x into a list, one per position. -/
def insertionsOf (x : Nat) : List Nat → List (List Nat)
  | [] => [[x]]
  | y :: ys => (x :: y :: ys) :: (insertionsOf x ys).map (fun l => y :: l)

/-- All permutations of a list, by repeated insertion. -/
def permsList : List Nat → List (List Nat)
  | [] => [[]]
  | x :: xs => (permsList xs).flatMap (insertionsOf x)

/-- All permutations of 0..k-1, modelling the itertools permutations(k) key
stream (the enumeration order differs, the collection of keys agrees, and
the collector result is order-independent); permsOf 0 = [[]], matching
itertools, which yields a single empty permutation for k = 0. -/
def permsOf (k : Nat) : List (List Nat) := permsList (List.range k)

/-- Entries pushed into the candidate heap: (score, decrypted text, key),
the Rust tuple (usize, String, Vec<usize>). -/
abbrev Entry : Type := Nat × List Char × List Nat

/-- Lexicographic Bool comparison of Nat lists, as Ord on Vec<usize>. -/
def natListLe : List Nat → List Nat → Bool
  | [], _ => true
  | _ :: _, [] => false
  | a :: as, b :: bs => if a < b then true else if b < a then false else natListLe as bs

/-- Strict lexicographic Bool comparison of texts, as Ord on String. -/
def charListLt : List Char → List Char → Bool
  | _, [] => false
  | [], _ :: _ => true
  | a :: as, b :: bs => if a < b then true else if b < a then false else charListLt as bs

/-- The lexicographic tuple order on heap entries: score first, then text,
then key — the derived Ord the BinaryHeap of Reverse tuples uses. -/
def entryLe (a b : Entry) : Bool :=
  if a.1 < b.1 then true
  else if b.1 < a.1 then false
  else if charListLt a.2.1 b.2.1 then true
  else if charListLt b.2.1 a.2.1 then false
  else natListLe a.2.2 b.2.2

/-- Minimum entry of x :: l in the tuple order: the element that
BinaryHeap<Reverse<...>>::pop removes. -/
def minFold (x : Entry) (l : List Entry) : Entry :=
  l.foldl (fun a b => if entryLe a b then a else b) x

/-- One insert into the bounded collector (main.rs lines 553 to 559): push
the entry, then, if the heap now holds more than 3 entries, pop the minimum.
The heap is modelled as a list of entries; the second component is the ghost
list of evicted entries. -/
def topkStep (st : List Entry × List Entry) (x : Entry) : List Entry × List Entry :=
  if 3 < (x :: st.1).length then
    ((x :: st.1).erase (minFold x st.1), minFold x st.1 :: st.2)
  else (x :: st.1, st.2)

/-- The collector state after a sequence of inserts, starting empty. -/
def topkRun (xs : List Entry) : List Entry × List Entry := xs.foldl topkStep ([], [])

/-- Insertion into a descending-sorted list of entries. -/
def insertDesc (x : Entry) : List Entry → List Entry
  | [] => [x]
  | y :: ys => if entryLe y x then x :: y :: ys else y :: insertDesc x ys

/-- Descending sort by the tuple order, modelling best.sort_by at main.rs
line 566: sorting the Reverse wrappers ascending is a descending sort of the
underlying tuples, so the highest score comes first. -/
def sortDesc : List Entry → List Entry
  | [] => []
  | x :: xs => insertDesc x (sortDesc xs)

/-- The stream of scored candidates tried by decrypt_columnar (main.rs lines
545 to 561), serialized: every key length from 1 to max_key_length, every
permutation of that length, decrypted with the default layout and scored. -/
def candidateEntries (text : List Char) (max_key : Nat) : List Entry :=
  (List.range' 1 max_key).flatMap (fun kl =>
    (permsOf kl).map (fun k =>
      let d := columnar_inv text k false
      (english_score d, d, k)))

/-- decrypt_columnar (main.rs lines 533 to 577): run every candidate through
the bounded collector, then return the retained entries in descending tuple
order.  The rayon parallel loop is serialized here; the mutex makes each
insert atomic, and the retained multiset is independent of insert order. -/
def decrypt_columnar_model (text : List Char) (max_key : Nat) : List Entry :=
  sortDesc ((candidateEntries text max_key).foldl topkStep ([], [])).1

/-- Character group g of the text for a given period: the characters at
indices congruent to g modulo the period, in order (main.rs lines 1019 to
1024). -/
def groupMod (text : List Char) (period g : Nat) : List Char :=
  (text.enum.filter (fun p => p.1 % period == g)).map Prod.snd

/-- Per-group Index of Coincidence (main.rs lines 1026 to 1041), modelled
over ℚ: some q is the exact value the f32 arithmetic approximates; none
marks a fault or an undefined value.  A character outside a..z makes the
freq_table indexing panic; a group with fewer than 2 characters makes every
summand the f32 division 0.0/0.0, which is NaN, so the group value is NaN. -/
def ic_group (group : List Char) : Option ℚ :=
  if group.all (fun c => 97 ≤ c.toNat && c.toNat ≤ 122) then
    if group.length < 2 then none
    else
      some (((List.range 26).map (fun j =>
        ((group.count (Char.ofNat (97 + j)) : ℚ) *
            ((group.count (Char.ofNat (97 + j)) : ℚ) - 1)) /
          ((group.length : ℚ) * ((group.length : ℚ) - 1)))).sum)
  else none

/-- index_of_coincidence (main.rs lines 1014 to 1046): the list of per-group
values for one period.  For period 0 the Rust code computes i % 0 for every
character, a panic, so any nonempty text is none; the empty text yields the
empty group vector. -/
def index_of_coincidence (text : List Char) (period : Nat) : Option (List (Option ℚ)) :=
  if period = 0 then (if text = [] then some [] else none)
  else some ((List.range period).map (fun g => ic_group (groupMod text period g)))

/-- Total version of the in-chunk permutation write loop, used in proofs; it
agrees with applyPermChunk whenever every key entry is inside the chunk. -/
def permChunkT (key : List Nat) (chunk : List Char) : List Char :=
  key.enum.foldl (fun cv p => cv.set p.2 (chunk.getD p.1 '\x00')) chunk

/-- Totalized periodic_inv used in proofs: permute every complete chunk and
concatenate. -/
def periodicRun (key : List Nat) (text : List Char) : List Char :=
  ((chunksOf key.length text).map
    (fun c => if c.length = key.length then permChunkT key c else c)).flatten

/-- Proof-side enumeration of (block index, row) pairs of the columnar_inv
fold, in processing order. -/
def pairsM (cols : List Nat) (s r : Nat) : List (Nat × Nat) :=
  (List.range cols.length).flatMap (fun j =>
    (List.range (rowLenF s r (cols.getD j 0))).map (fun row => (j, row)))

/-- Start offset of block j of the advancing cursor: the total length of the
blocks before it. -/
def blockStart (cols : List Nat) (s r j : Nat) : Nat :=
  ((cols.take j).map (rowLenF s r)).sum

/-! ## Theorems -/

theorem foldl_add_sum {α : Type} (f : α → Nat) (l : List α) : ∀ a : Nat,
    l.foldl (fun s x => s + f x) a = a + (l.map f).sum := by
  induction l with
  | nil => intro a; simp
  | cons x l ih => intro a; simp only [List.foldl_cons, List.map_cons, List.sum_cons, ih]; omega

/-- C9: english_score first case-folds the text and then returns the sum over
the trigram, bigram, common-word and character-frequency tables of
occurrence count times weight; it is a deterministic pure function of the
string (equal inputs yield equal scores). -/
theorem english_score_table_sum (text : List Char) :
    (english_score text =
      (COMMON_TRIGRAMS.map (fun p => countMatches p.1 (text.map asciiLower) * p.2)).sum +
      (COMMON_BIGRAMS.map (fun p => countMatches p.1 (text.map asciiLower) * p.2)).sum +
      (COMMON_WORDS.map (fun p => countMatches p.1 (text.map asciiLower) * p.2)).sum +
      (CHAR_FREQUENCIES.map (fun p => (text.map asciiLower).count p.1 * p.2)).sum) ∧
    ∀ other : List Char, text = other → english_score text = english_score other := by
  constructor
  · simp only [english_score, foldl_add_sum]
    omega
  · intro other h
    rw [h]

/-- Witness: english_score_table_sum applied at the concrete text "the". -/
theorem english_score_table_sum_witness :
    (english_score "the".toList =
      (COMMON_TRIGRAMS.map (fun p => countMatches p.1 ("the".toList.map asciiLower) * p.2)).sum +
      (COMMON_BIGRAMS.map (fun p => countMatches p.1 ("the".toList.map asciiLower) * p.2)).sum +
      (COMMON_WORDS.map (fun p => countMatches p.1 ("the".toList.map asciiLower) * p.2)).sum +
      (CHAR_FREQUENCIES.map (fun p => ("the".toList.map asciiLower).count p.1 * p.2)).sum) ∧
    english_score "the".toList = english_score "the".toList :=
  ⟨(english_score_table_sum "the".toList).1, (english_score_table_sum "the".toList).2 _ rfl⟩

/-! Characterizations of the ASCII character classifiers used by the Rust
code (`is_ascii_alphabetic`, `is_uppercase` on ASCII input). -/

theorem char_isUpper_iff (c : Char) : c.isUpper = true ↔ (65 ≤ c.toNat ∧ c.toNat ≤ 90) := by
  simp only [Char.isUpper, Bool.and_eq_true, decide_eq_true_eq, Char.le_def, UInt32.le_def,
    BitVec.le_def, Char.toNat]
  exact Iff.rfl

theorem char_isAlpha_iff (c : Char) :
    c.isAlpha = true ↔ ((65 ≤ c.toNat ∧ c.toNat ≤ 90) ∨ (97 ≤ c.toNat ∧ c.toNat ≤ 122)) := by
  simp only [Char.isAlpha, Char.isUpper, Char.isLower, Bool.or_eq_true, Bool.and_eq_true,
    decide_eq_true_eq, Char.le_def, UInt32.le_def, BitVec.le_def, Char.toNat]
  exact Iff.rfl

theorem char_toNat_ofNat_small : ∀ n, n < 128 → (Char.ofNat n).toNat = n := by decide

theorem char_ofNat_isUpper_small :
    ∀ n, n < 128 → ((Char.ofNat n).isUpper = true ↔ (65 ≤ n ∧ n ≤ 90)) := by decide

theorem char_ofNat_isAlpha_small :
    ∀ n, n < 128 →
      ((Char.ofNat n).isAlpha = true ↔ ((65 ≤ n ∧ n ≤ 90) ∨ (97 ≤ n ∧ n ≤ 122))) := by decide

theorem enum_map_getD (f : Nat × Char → Char) (text : List Char) (i : Nat)
    (hi : i < text.length) (d : Char) : (text.enum.map f).getD i d = f (i, text[i]) := by
  have hl : i < (text.enum.map f).length := by simpa using hi
  rw [List.getD_eq_getElem _ _ hl]
  simp [List.getElem_map, List.getElem_enum]

/-- C5: for every ciphertext and every shift vector of length P with entries
below 26, the Vigenère inverse maps each alphabetic character at global index
i to (cipher - shift[i mod P]) mod 26 relative to its own case base and
preserves case, the Beaufort inverse maps it to (shift[i mod P] - cipher)
mod 26, and non-alphabetic characters are emitted unchanged at their
positions while still counting toward the i mod P indexing (the index i is
the global character index, never skipped). -/
theorem vigenere_beaufort_inverse_map (key : List Nat) (period : Nat) (text : List Char)
    (hp : 0 < period) (hlen : key.length = period) (hsh : ∀ s ∈ key, s < 26) :
    (vigenere_apply key period text).length = text.length ∧
    (beaufort_apply key period text).length = text.length ∧
    ∀ i, (hi : i < text.length) →
      (text[i].isAlpha = false →
        (vigenere_apply key period text).getD i ' ' = text[i] ∧
        (beaufort_apply key period text).getD i ' ' = text[i]) ∧
      (text[i].isAlpha = true →
        ((vigenere_apply key period text).getD i ' ').isAlpha = true ∧
        ((vigenere_apply key period text).getD i ' ').isUpper = text[i].isUpper ∧
        ((beaufort_apply key period text).getD i ' ').isAlpha = true ∧
        ((beaufort_apply key period text).getD i ' ').isUpper = text[i].isUpper ∧
        ((((vigenere_apply key period text).getD i ' ').toNat : ℤ) -
            (if text[i].isUpper then (65 : ℤ) else 97) =
          ((text[i].toNat : ℤ) - (if text[i].isUpper then (65 : ℤ) else 97) -
            (key.getD (i % period) 0 : ℤ)) % 26) ∧
        ((((beaufort_apply key period text).getD i ' ').toNat : ℤ) -
            (if text[i].isUpper then (65 : ℤ) else 97) =
          ((key.getD (i % period) 0 : ℤ) -
            ((text[i].toNat : ℤ) - (if text[i].isUpper then (65 : ℤ) else 97))) % 26)) := by
  refine ⟨by simp [vigenere_apply], by simp [beaufort_apply], ?_⟩
  intro i hi
  have hv := enum_map_getD (fun p =>
    if p.2.isAlpha then
      Char.ofNat ((p.2.toNat - (if p.2.isUpper then 65 else 97) + 26 -
        key.getD (p.1 % period) 0) % 26 + (if p.2.isUpper then 65 else 97))
    else p.2) text i hi ' '
  have hb := enum_map_getD (fun p =>
    if p.2.isAlpha then
      Char.ofNat ((key.getD (p.1 % period) 0 + 26 -
        (p.2.toNat - (if p.2.isUpper then 65 else 97))) % 26 + (if p.2.isUpper then 65 else 97))
    else p.2) text i hi ' '
  rw [show vigenere_apply key period text = text.enum.map (fun p =>
    if p.2.isAlpha then
      Char.ofNat ((p.2.toNat - (if p.2.isUpper then 65 else 97) + 26 -
        key.getD (p.1 % period) 0) % 26 + (if p.2.isUpper then 65 else 97))
    else p.2) from rfl]
  rw [show beaufort_apply key period text = text.enum.map (fun p =>
    if p.2.isAlpha then
      Char.ofNat ((key.getD (p.1 % period) 0 + 26 -
        (p.2.toNat - (if p.2.isUpper then 65 else 97))) % 26 + (if p.2.isUpper then 65 else 97))
    else p.2) from rfl]
  rw [hv, hb]
  constructor
  · intro hna
    simp [hna]
  · intro hca
    have hs : key.getD (i % period) 0 < 26 := by
      have h1 : i % period < key.length := by
        rw [hlen]; exact Nat.mod_lt i hp
      rw [List.getD_eq_getElem _ _ h1]
      exact hsh _ (List.getElem_mem h1)
    set s := key.getD (i % period) 0 with hsdef
    set c := text[i] with hcdef
    rcases (char_isAlpha_iff c).1 hca with hU | hL
    · have hup : c.isUpper = true := (char_isUpper_iff c).2 hU
      have hmv : (c.toNat - 65 + 26 - s) % 26 + 65 < 128 := by omega
      have hmb : (s + 26 - (c.toNat - 65)) % 26 + 65 < 128 := by omega
      simp only [hca, hup, if_true, if_pos]
      refine ⟨?_, ?_, ?_, ?_, ?_, ?_⟩
      · rw [char_ofNat_isAlpha_small _ hmv]; left; omega
      · rw [char_ofNat_isUpper_small _ hmv]; simp; omega
      · rw [char_ofNat_isAlpha_small _ hmb]; left; omega
      · rw [char_ofNat_isUpper_small _ hmb]; simp; omega
      · rw [char_toNat_ofNat_small _ hmv]; omega
      · rw [char_toNat_ofNat_small _ hmb]; omega
    · have hup : c.isUpper = false := by
        rw [Bool.eq_false_iff]
        intro h
        have := (char_isUpper_iff c).1 h
        omega
      have hmv : (c.toNat - 97 + 26 - s) % 26 + 97 < 128 := by omega
      have hmb : (s + 26 - (c.toNat - 97)) % 26 + 97 < 128 := by omega
      simp only [hca, hup, Bool.false_eq_true, if_true, if_false]
      refine ⟨?_, ?_, ?_, ?_, ?_, ?_⟩
      · rw [char_ofNat_isAlpha_small _ hmv]; right; omega
      · rw [Bool.eq_false_iff]
        intro h
        have := (char_ofNat_isUpper_small _ hmv).1 h
        omega
      · rw [char_ofNat_isAlpha_small _ hmb]; right; omega
      · rw [Bool.eq_false_iff]
        intro h
        have := (char_ofNat_isUpper_small _ hmb).1 h
        omega
      · rw [char_toNat_ofNat_small _ hmv]; omega
      · rw [char_toNat_ofNat_small _ hmb]; omega

/-- Witness: vigenere_beaufort_inverse_map applied to key [3], period 1 and
the concrete text consisting of an E and an exclamation mark. -/
theorem vigenere_beaufort_inverse_map_witness :
    (0 < 1 ∧ ([3] : List Nat).length = 1 ∧ ∀ s ∈ ([3] : List Nat), s < 26) ∧
    (vigenere_apply [3] 1 "E!".toList).length = "E!".toList.length ∧
    (beaufort_apply [3] 1 "E!".toList).length = "E!".toList.length :=
  ⟨⟨by decide, by decide, by decide⟩,
   (vigenere_beaufort_inverse_map [3] 1 "E!".toList (by decide) (by decide) (by decide)).1,
   (vigenere_beaufort_inverse_map [3] 1 "E!".toList (by decide) (by decide) (by decide)).2.1⟩

/-- C2 (code evaluated at the failing input): for the single-character text
"a" and period 1, the only frequency group holds one character, and the
unguarded division by N*(N-1) = 0 makes its value undefined (NaN in the f32
code, none in this model) instead of contributing zero as the claim states. -/
theorem ic_unguarded_single_char :
    index_of_coincidence "a".toList 1 = some [none] := by decide

/-- C8 (code evaluated at failing inputs): degenerate inputs are not skipped.
The key stream for a zero-length period still yields the empty key, and the
periodic transform applied to it on a nonempty text faults (Rust chunks(0)
panics, modelled as none); the columnar transform is invoked, not skipped,
on empty text (returning the empty string) and with a key longer than the
text (returning a partial rearrangement), both without fault. -/
theorem degenerate_inputs_not_skipped :
    permsOf 0 = [[]] ∧ periodic_inv "ab".toList [] = none ∧
    columnar_inv [] [0] false = [] ∧
    columnar_inv "ab".toList [2, 0, 1] false = "ba".toList := by decide

/-! Properties of the tuple order and the bounded collector. -/

theorem natListLe_total : ∀ a b : List Nat, natListLe a b = true ∨ natListLe b a = true := by
  intro a
  induction a with
  | nil => intro b; left; rfl
  | cons x xs ih =>
    intro b
    cases b with
    | nil => right; rfl
    | cons y ys =>
      by_cases h1 : x < y
      · left; simp [natListLe, h1]
      · by_cases h2 : y < x
        · right; simp [natListLe, h1, h2]
        · rcases ih ys with h | h
          · left; simp [natListLe, h1, h2, h]
          · right; simp [natListLe, h1, h2, h]

theorem entryLe_total (a b : Entry) : entryLe a b = true ∨ entryLe b a = true := by
  unfold entryLe
  by_cases h1 : a.1 < b.1
  · left; simp [h1]
  · by_cases h2 : b.1 < a.1
    · right; simp [h1, h2]
    · by_cases h3 : charListLt a.2.1 b.2.1 = true
      · left; simp [h1, h2, h3]
      · by_cases h4 : charListLt b.2.1 a.2.1 = true
        · right; simp [h1, h2, h3, h4]
        · rcases natListLe_total a.2.2 b.2.2 with h | h
          · left; simp [h1, h2, h3, h4, h]
          · right; simp [h1, h2, h3, h4, h]

theorem entryLe_score {a b : Entry} (h : entryLe a b = true) : a.1 ≤ b.1 := by
  by_cases h1 : a.1 < b.1
  · omega
  · by_cases h2 : b.1 < a.1
    · simp [entryLe, h1, h2] at h
    · omega

theorem minFold_mem : ∀ (l : List Entry) (x : Entry), minFold x l ∈ x :: l := by
  intro l
  induction l with
  | nil => intro x; simp [minFold]
  | cons y ys ih =>
    intro x
    rw [show minFold x (y :: ys) = minFold (if entryLe x y then x else y) ys from rfl]
    rcases List.mem_cons.mp (ih (if entryLe x y then x else y)) with h | h
    · rw [h]
      split
      · exact List.mem_cons_self _ _
      · exact List.mem_cons_of_mem _ (List.mem_cons_self _ _)
    · exact List.mem_cons_of_mem _ (List.mem_cons_of_mem _ h)

theorem minFold_score : ∀ (l : List Entry) (x : Entry),
    (minFold x l).1 ≤ x.1 ∧ ∀ y ∈ l, (minFold x l).1 ≤ y.1 := by
  intro l
  induction l with
  | nil => intro x; exact ⟨le_refl _, by simp⟩
  | cons y ys ih =>
    intro x
    rw [show minFold x (y :: ys) = minFold (if entryLe x y then x else y) ys from rfl]
    have h := ih (if entryLe x y then x else y)
    have hxy : (if entryLe x y then x else y).1 ≤ x.1 ∧ (if entryLe x y then x else y).1 ≤ y.1 := by
      by_cases hc : entryLe x y = true
      · rw [if_pos hc]
        exact ⟨le_refl _, entryLe_score hc⟩
      · rcases entryLe_total x y with h1 | h1
        · exact absurd h1 hc
        · rw [if_neg hc]
          exact ⟨entryLe_score h1, le_refl _⟩
    refine ⟨le_trans h.1 hxy.1, ?_⟩
    intro z hz
    rcases List.mem_cons.mp hz with hz | hz
    · rw [hz]
      exact le_trans h.1 hxy.2
    · exact h.2 z hz

theorem topkFold_invariant (xs : List Entry) : ∀ st : List Entry × List Entry,
    st.1.length ≤ 3 →
    (st.2 ≠ [] → st.1.length = 3) →
    (∀ e ∈ st.2, ∀ r ∈ st.1, e.1 ≤ r.1) →
    (xs.foldl topkStep st).1.length = min 3 (st.1.length + xs.length) ∧
    ((xs.foldl topkStep st).2 ≠ [] → (xs.foldl topkStep st).1.length = 3) ∧
    (∀ e ∈ (xs.foldl topkStep st).2, ∀ r ∈ (xs.foldl topkStep st).1, e.1 ≤ r.1) := by
  induction xs with
  | nil =>
    intro st h1 h2 h3
    refine ⟨?_, h2, h3⟩
    simp only [List.foldl_nil, List.length_nil]
    omega
  | cons x xs ih =>
    intro st h1 h2 h3
    rw [List.foldl_cons]
    have hm : minFold x st.1 ∈ x :: st.1 := minFold_mem st.1 x
    have hms := minFold_score st.1 x
    by_cases hc : 3 < (x :: st.1).length
    · have hlen3 : st.1.length = 3 := by
        simp only [List.length_cons] at hc
        omega
      have hstep : topkStep st x =
          ((x :: st.1).erase (minFold x st.1), minFold x st.1 :: st.2) := by
        unfold topkStep
        rw [if_pos hc]
      rw [hstep]
      have herlen : ((x :: st.1).erase (minFold x st.1)).length = 3 := by
        rw [List.length_erase_of_mem hm]
        simp only [List.length_cons]
        omega
      have hsub : ∀ r ∈ (x :: st.1).erase (minFold x st.1), r ∈ x :: st.1 :=
        fun r hr => List.erase_subset _ _ hr
      have hinv : ∀ e ∈ minFold x st.1 :: st.2,
          ∀ r ∈ (x :: st.1).erase (minFold x st.1), e.1 ≤ r.1 := by
        intro e he r hr
        rcases List.mem_cons.mp he with he | he
        · rcases List.mem_cons.mp (hsub r hr) with hr2 | hr2
          · rw [he, hr2]
            exact hms.1
          · rw [he]
            exact hms.2 r hr2
        · rcases List.mem_cons.mp (hsub r hr) with hr2 | hr2
          · by_contra hlt
            push_neg at hlt
            rw [hr2] at hlt
            have hxall : ∀ y ∈ st.1, x.1 < y.1 := by
              intro y hy
              have := h3 e he y hy
              omega
            have hmx : minFold x st.1 = x := by
              rcases List.mem_cons.mp hm with h | h
              · exact h
              · have := hxall _ h
                have := hms.1
                omega
            rw [hmx, List.erase_cons_head] at hr
            have := hxall _ hr
            rw [hr2] at this
            omega
          · exact h3 e he r hr2
      have hrec := ih ((x :: st.1).erase (minFold x st.1), minFold x st.1 :: st.2)
        (by rw [herlen]) (fun _ => herlen) hinv
      refine ⟨?_, hrec.2.1, hrec.2.2⟩
      rw [hrec.1, herlen]
      simp only [List.length_cons]
      omega
    · have hstep : topkStep st x = (x :: st.1, st.2) := by
        unfold topkStep
        rw [if_neg hc]
      rw [hstep]
      have hev : st.2 = [] := by
        by_contra hne
        have := h2 hne
        simp only [List.length_cons] at hc
        omega
      have hinv : ∀ e ∈ st.2, ∀ r ∈ x :: st.1, e.1 ≤ r.1 := by
        rw [hev]
        intro e he
        exact absurd he (List.not_mem_nil e)
      have hrec := ih (x :: st.1, st.2)
        (by simp only [List.length_cons] at hc ⊢; omega)
        (fun hne => absurd hev (by intro h; exact hne (by rw [hev]) )) hinv
      refine ⟨?_, hrec.2.1, hrec.2.2⟩
      rw [hrec.1]
      simp only [List.length_cons, List.length_cons]
      omega

/-- C4: after any sequence of inserts into the bounded collector with
capacity 3, the collector holds exactly min(3, number of inserts) entries —
in particular never more than 3 at any point along the sequence — and every
retained score is at least every evicted score. -/
theorem topk_collector_invariant (xs : List Entry) :
    (∀ j, ((xs.take j).foldl topkStep ([], [])).1.length = min 3 (xs.take j).length) ∧
    (topkRun xs).1.length = min 3 xs.length ∧
    ∀ e ∈ (topkRun xs).2, ∀ r ∈ (topkRun xs).1, e.1 ≤ r.1 := by
  have hbase : ∀ ys : List Entry,
      (ys.foldl topkStep ([], [])).1.length = min 3 ys.length ∧
      (∀ e ∈ (ys.foldl topkStep ([], [])).2, ∀ r ∈ (ys.foldl topkStep ([], [])).1, e.1 ≤ r.1) := by
    intro ys
    have h := topkFold_invariant ys ([], []) (by simp) (by simp) (by simp)
    refine ⟨?_, h.2.2⟩
    rw [h.1]
    simp
  exact ⟨fun j => (hbase (xs.take j)).1, (hbase xs).1, (hbase xs).2⟩

/-- Witness: topk_collector_invariant on four concrete inserts with scores
5, 1, 3, 2: three entries are retained and the score-1 entry is evicted. -/
theorem topk_collector_invariant_witness :
    ((([(5, ([] : List Char), ([] : List Nat)), (1, [], []), (3, [], []), (2, [], [])].take 4).foldl
        topkStep ([], [])).1.length =
      min 3 ([(5, ([] : List Char), ([] : List Nat)), (1, [], []), (3, [], []), (2, [], [])].take 4).length) ∧
    ((1, ([] : List Char), ([] : List Nat)) ∈
        (topkRun [(5, [], []), (1, [], []), (3, [], []), (2, [], [])]).2) ∧
    ((3, ([] : List Char), ([] : List Nat)) ∈
        (topkRun [(5, [], []), (1, [], []), (3, [], []), (2, [], [])]).1) ∧
    (1 : Nat) ≤ 3 :=
  ⟨(topk_collector_invariant [(5, [], []), (1, [], []), (3, [], []), (2, [], [])]).1 4,
   by decide, by decide,
   (topk_collector_invariant [(5, [], []), (1, [], []), (3, [], []), (2, [], [])]).2.2
     (1, [], []) (by decide) (3, [], []) (by decide)⟩

/-! The search result has no sentinel: lemmas for the result list shape. -/

theorem insertDesc_length (x : Entry) : ∀ l, (insertDesc x l).length = l.length + 1 := by
  intro l
  induction l with
  | nil => rfl
  | cons y ys ih =>
    unfold insertDesc
    split
    · simp
    · simp only [List.length_cons, ih]

theorem sortDesc_length : ∀ l, (sortDesc l).length = l.length := by
  intro l
  induction l with
  | nil => rfl
  | cons x xs ih =>
    unfold sortDesc
    rw [insertDesc_length, ih]
    rfl

theorem insertionsOf_ne_nil (x : Nat) : ∀ l, insertionsOf x l ≠ [] := by
  intro l
  cases l with
  | nil => simp [insertionsOf]
  | cons y ys => simp [insertionsOf]

theorem permsList_ne_nil : ∀ l, permsList l ≠ [] := by
  intro l
  induction l with
  | nil => simp [permsList]
  | cons x xs ih =>
    unfold permsList
    obtain ⟨p, hp⟩ := List.exists_mem_of_ne_nil _ ih
    obtain ⟨q, hq⟩ := List.exists_mem_of_ne_nil _ (insertionsOf_ne_nil x p)
    exact List.ne_nil_of_mem (List.mem_flatMap.mpr ⟨p, hp, hq⟩)

/-- C3 (amended): the search returns a plain candidate list with no
sentinel: on the empty input (indeed on any input) with max key length at
least 1 the result is a nonempty list of scored candidates, and when no
candidate is tried (max key length 0) the result is the plain empty list,
not a distinct sentinel value. -/
theorem search_empty_no_sentinel (text : List Char) (max_key : Nat) (h : 1 ≤ max_key) :
    decrypt_columnar_model text max_key ≠ [] ∧ decrypt_columnar_model text 0 = [] := by
  constructor
  · have h1 : (1 : Nat) ∈ List.range' 1 max_key := by
      rw [List.mem_range'_1]
      omega
    obtain ⟨p, hp⟩ := List.exists_mem_of_ne_nil _ (permsList_ne_nil (List.range 1))
    have hmem : (english_score (columnar_inv text p false), columnar_inv text p false, p) ∈
        candidateEntries text max_key := by
      unfold candidateEntries
      exact List.mem_flatMap.mpr ⟨1, h1, List.mem_map.mpr ⟨p, hp, rfl⟩⟩
    have hne : candidateEntries text max_key ≠ [] := List.ne_nil_of_mem hmem
    have hlen : 0 < (candidateEntries text max_key).length := List.length_pos.mpr hne
    have hfold := topkFold_invariant (candidateEntries text max_key) ([], [])
      (by simp) (by simp) (by simp)
    have hlen2 : ((candidateEntries text max_key).foldl topkStep ([], [])).1.length =
        min 3 (candidateEntries text max_key).length := by
      rw [hfold.1]
      simp
    unfold decrypt_columnar_model
    intro hcon
    have hzero := congrArg List.length hcon
    rw [sortDesc_length] at hzero
    simp only [List.length_nil] at hzero
    rw [hlen2] at hzero
    omega
  · rfl

/-- Witness: search_empty_no_sentinel applied at the concrete text "a" with
max key length 1. -/
theorem search_empty_no_sentinel_witness :
    1 ≤ 1 ∧
      (decrypt_columnar_model "a".toList 1 ≠ [] ∧ decrypt_columnar_model "a".toList 0 = []) :=
  ⟨by decide, search_empty_no_sentinel "a".toList 1 (by decide)⟩

set_option maxRecDepth 8000 in
/-- C3 (the claim as stated is false at the empty input): running the search
on the empty string returns an ordinary successful candidate list — one
retained candidate with empty decrypted text, score 0 and key [0] — rather
than any "no solution" sentinel distinct from a list; no such sentinel
exists in the result type. -/
theorem search_empty_input_cex :
    decrypt_columnar_model [] 1 = [(0, [], [0])] := by decide

/-! Generic lemmas about lists rebuilt from indexed reads and about folds of
indexed writes, used for both transposition inverses. -/

theorem list_eq_map_getD_range {α : Type} (l : List α) (d : α) :
    (List.range l.length).map (fun i => l.getD i d) = l := by
  apply List.ext_getElem
  · simp
  · intro m h1 h2
    simp only [List.getElem_map, List.getElem_range]
    exact List.getD_eq_getElem l d h2

theorem nodup_getD_inj (l : List Nat) (hnd : l.Nodup) {a b : Nat}
    (ha : a < l.length) (hb : b < l.length) (h : l.getD a 0 = l.getD b 0) : a = b := by
  rw [List.getD_eq_getElem _ _ ha, List.getD_eq_getElem _ _ hb] at h
  have hinj := List.nodup_iff_injective_get.mp hnd
  have h2 : l.get ⟨a, ha⟩ = l.get ⟨b, hb⟩ := by simpa using h
  exact congrArg Fin.val (hinj h2)

theorem nodup_length_perm_range (l : List Nat) (n : Nat) (hnd : l.Nodup)
    (hlen : l.length = n) (hmem : ∀ x ∈ l, x < n) : l.Perm (List.range n) := by
  apply List.perm_of_nodup_nodup_toFinset_eq hnd (List.nodup_range n)
  apply Finset.eq_of_subset_of_card_le
  · intro x hx
    rw [List.mem_toFinset] at hx ⊢
    rw [List.mem_range]
    exact hmem x hx
  · rw [List.toFinset_card_of_nodup (List.nodup_range n),
      List.toFinset_card_of_nodup hnd, List.length_range, hlen]

theorem setPF_length {α : Type} : ∀ (ps : List (Nat × α)) (init : List α),
    (ps.foldl (fun acc q => acc.set q.1 q.2) init).length = init.length := by
  intro ps
  induction ps with
  | nil => intro init; rfl
  | cons q ps ih =>
    intro init
    rw [List.foldl_cons, ih, List.length_set]

theorem setPF_untouched {α : Type} (d : α) : ∀ (ps : List (Nat × α)) (init : List α) (j : Nat),
    (∀ q ∈ ps, q.1 ≠ j) →
    (ps.foldl (fun acc q => acc.set q.1 q.2) init).getD j d = init.getD j d := by
  intro ps
  induction ps with
  | nil => intro init j _; rfl
  | cons q ps ih =>
    intro init j hq
    rw [List.foldl_cons, ih _ _ (fun p hp => hq p (List.mem_cons_of_mem _ hp))]
    rw [List.getD_eq_getElem?_getD, List.getD_eq_getElem?_getD,
      List.getElem?_set_ne (hq q (List.mem_cons_self _ _))]

theorem setPF_getD {α : Type} (d : α) : ∀ (ps : List (Nat × α)) (init : List α) (j : Nat) (v : α),
    (j, v) ∈ ps → (ps.map Prod.fst).Nodup → j < init.length →
    (ps.foldl (fun acc q => acc.set q.1 q.2) init).getD j d = v := by
  intro ps
  induction ps with
  | nil => intro init j v h _ _; exact absurd h (List.not_mem_nil _)
  | cons q ps ih =>
    intro init j v hmem hnd hlt
    rw [List.map_cons, List.nodup_cons] at hnd
    rcases List.mem_cons.mp hmem with he | he
    · have hq1 : q.1 = j := by rw [← he]
      have hnot : ∀ p ∈ ps, p.1 ≠ j := by
        intro p hp heq
        exact hnd.1 (by rw [hq1, ← heq]; exact List.mem_map_of_mem Prod.fst hp)
      rw [List.foldl_cons, setPF_untouched d ps _ j hnot, List.getD_eq_getElem?_getD, hq1,
        List.getElem?_set_self hlt, ← he]
      rfl
    · rw [List.foldl_cons]
      exact ih (init.set q.1 q.2) j v he hnd.2 (by rw [List.length_set]; exact hlt)

theorem setRF_length (pl : Nat → Nat) (v : Nat → Char) : ∀ (len : Nat) (out : List Char),
    ((List.range len).foldl (fun o row => o.set (pl row) (v row)) out).length = out.length := by
  intro len
  induction len with
  | zero => intro out; rfl
  | succ len ih =>
    intro out
    rw [List.range_succ, List.foldl_append]
    simp only [List.foldl_cons, List.foldl_nil]
    rw [List.length_set, ih]

theorem setRF_untouched (pl : Nat → Nat) (v : Nat → Char) (d : Char) :
    ∀ (len : Nat) (out : List Char) (q : Nat), (∀ row, row < len → pl row ≠ q) →
    ((List.range len).foldl (fun o row => o.set (pl row) (v row)) out).getD q d = out.getD q d := by
  intro len
  induction len with
  | zero => intro out q _; rfl
  | succ len ih =>
    intro out q hq
    rw [List.range_succ, List.foldl_append]
    simp only [List.foldl_cons, List.foldl_nil]
    rw [List.getD_eq_getElem?_getD,
      List.getElem?_set_ne (hq len (Nat.lt_succ_self len)), ← List.getD_eq_getElem?_getD]
    exact ih out q (fun row hrow => hq row (Nat.lt_succ_of_lt hrow))

theorem setRF_written (pl : Nat → Nat) (v : Nat → Char) (d : Char) :
    ∀ (len : Nat) (out : List Char) (row : Nat), row < len →
    (∀ r1 r2, r1 < len → r2 < len → pl r1 = pl r2 → r1 = r2) →
    pl row < out.length →
    ((List.range len).foldl (fun o row => o.set (pl row) (v row)) out).getD (pl row) d = v row := by
  intro len
  induction len with
  | zero => intro out row hrow; omega
  | succ len ih =>
    intro out row hrow hinj hbound
    rw [List.range_succ, List.foldl_append]
    simp only [List.foldl_cons, List.foldl_nil]
    by_cases hc : row = len
    · subst hc
      rw [List.getD_eq_getElem?_getD, List.getElem?_set_self (by rw [setRF_length]; exact hbound)]
      rfl
    · have hne : pl len ≠ pl row := by
        intro h
        exact hc (hinj len row (Nat.lt_succ_self len) hrow h).symm
      rw [List.getD_eq_getElem?_getD, List.getElem?_set_ne hne, ← List.getD_eq_getElem?_getD]
      exact ih out row (by omega) (fun r1 r2 h1 h2 => hinj r1 r2 (by omega) (by omega)) hbound

/-! Geometry of the columnar placements: every placement is inside the
output, and distinct (column, row) pairs are placed at distinct positions. -/

theorem placeF_lt (tr : Bool) (kl s r n col row : Nat) (hn : n = s * kl + r) (hr : r < kl)
    (hcol : col < kl) (hrow : row < rowLenF s r col) :
    placeF tr kl s r col row < n := by
  unfold placeF
  unfold rowLenF at hrow
  cases tr with
  | false =>
    simp only [Bool.false_eq_true, if_false]
    by_cases hcr : col < r
    · rw [if_pos hcr] at hrow
      have h1 : row * kl ≤ s * kl := Nat.mul_le_mul_right kl (by omega)
      omega
    · rw [if_neg hcr] at hrow
      have h1 : (row + 1) * kl ≤ s * kl := Nat.mul_le_mul_right kl (by omega)
      have h2 : (row + 1) * kl = row * kl + kl := by ring
      omega
  | true =>
    simp only [if_true]
    have h1 : (col + 1) * s ≤ kl * s := Nat.mul_le_mul_right s (by omega)
    have h2 : (col + 1) * s = col * s + s := by ring
    have h3 : kl * s = s * kl := Nat.mul_comm kl s
    by_cases hcr : col < r
    · rw [if_pos hcr] at hrow
      rw [if_pos hcr]
      omega
    · rw [if_neg hcr] at hrow
      rw [if_neg hcr]
      omega

theorem placeT_mono (kl s r : Nat) (col row col2 row2 : Nat) (hlt : col < col2)
    (hrow : row < rowLenF s r col) :
    placeF true kl s r col row < placeF true kl s r col2 row2 := by
  unfold placeF
  unfold rowLenF at hrow
  simp only [if_true]
  have h1 : (col + 1) * s ≤ col2 * s := Nat.mul_le_mul_right s (by omega)
  have h2 : (col + 1) * s = col * s + s := by ring
  by_cases hcr : col < r
  · rw [if_pos hcr] at hrow
    rw [if_pos hcr]
    by_cases hcr2 : col2 < r
    · rw [if_pos hcr2]; omega
    · rw [if_neg hcr2]; omega
  · rw [if_neg hcr] at hrow
    rw [if_neg hcr]
    have hcr2 : ¬ col2 < r := by omega
    rw [if_neg hcr2]
    omega

theorem placeF_inj (tr : Bool) (kl s r : Nat) (hr : r < kl) (col row col2 row2 : Nat)
    (hcol : col < kl) (hcol2 : col2 < kl)
    (hrow : row < rowLenF s r col) (hrow2 : row2 < rowLenF s r col2)
    (heq : placeF tr kl s r col row = placeF tr kl s r col2 row2) :
    col = col2 ∧ row = row2 := by
  have hkl : 0 < kl := by omega
  cases tr with
  | false =>
    unfold placeF at heq
    simp only [Bool.false_eq_true, if_false] at heq
    rw [Nat.mul_comm row kl, Nat.mul_comm row2 kl] at heq
    have h1 := congrArg (fun x => x % kl) heq
    simp only [Nat.mul_add_mod] at h1
    rw [Nat.mod_eq_of_lt hcol, Nat.mod_eq_of_lt hcol2] at h1
    have h2 := congrArg (fun x => x / kl) heq
    simp only [Nat.mul_add_div hkl] at h2
    rw [Nat.div_eq_of_lt hcol, Nat.div_eq_of_lt hcol2] at h2
    exact ⟨h1, by omega⟩
  | true =>
    rcases Nat.lt_trichotomy col col2 with hc | hc | hc
    · exact absurd heq (Nat.ne_of_lt (placeT_mono kl s r col row col2 row2 hc hrow))
    · refine ⟨hc, ?_⟩
      subst hc
      unfold placeF at heq
      simp only [if_true] at heq
      omega
    · exact absurd heq.symm (Nat.ne_of_lt (placeT_mono kl s r col2 row2 col row hc hrow2))

/-! The columnar scatter fold: length preservation, untouched positions, and
the value written at each placement. -/

theorem colFold_length (tr : Bool) (kl s r : Nat) (chars : List Char) :
    ∀ (cols : List Nat) (st : List Char × Nat),
    ((cols.foldl (colStep tr kl s r chars) st).1).length = st.1.length := by
  intro cols
  induction cols with
  | nil => intro st; rfl
  | cons c cols ih =>
    intro st
    rw [List.foldl_cons, ih]
    exact setRF_length _ _ _ _

theorem colFold_offset (tr : Bool) (kl s r : Nat) (chars : List Char) :
    ∀ (cols : List Nat) (st : List Char × Nat),
    (cols.foldl (colStep tr kl s r chars) st).2 = st.2 + (cols.map (rowLenF s r)).sum := by
  intro cols
  induction cols with
  | nil => intro st; simp
  | cons c cols ih =>
    intro st
    rw [List.foldl_cons, ih, List.map_cons, List.sum_cons]
    show st.2 + rowLenF s r c + (List.map (rowLenF s r) cols).sum = _
    omega

theorem colFold_untouched (tr : Bool) (kl s r : Nat) (chars : List Char) :
    ∀ (cols : List Nat) (st : List Char × Nat) (q : Nat),
    (∀ c ∈ cols, ∀ row, row < rowLenF s r c → placeF tr kl s r c row ≠ q) →
    ((cols.foldl (colStep tr kl s r chars) st).1).getD q '\x00' = st.1.getD q '\x00' := by
  intro cols
  induction cols with
  | nil => intro st q _; rfl
  | cons c cols ih =>
    intro st q hq
    rw [List.foldl_cons,
      ih _ _ (fun c2 hc2 row hrow => hq c2 (List.mem_cons_of_mem _ hc2) row hrow)]
    exact setRF_untouched _ _ _ _ _ _ (fun row hrow => hq c (List.mem_cons_self _ _) row hrow)

theorem colFold_getD (tr : Bool) (kl s r n : Nat) (chars : List Char)
    (hn : n = s * kl + r) (hr : r < kl) :
    ∀ (cols : List Nat) (st : List Char × Nat),
    (∀ c ∈ cols, c < kl) → cols.Nodup → st.1.length = n →
    ∀ j row, j < cols.length → row < rowLenF s r (cols.getD j 0) →
    ((cols.foldl (colStep tr kl s r chars) st).1).getD
        (placeF tr kl s r (cols.getD j 0) row) '\x00'
      = chars.getD (st.2 + ((cols.take j).map (rowLenF s r)).sum + row) '\x00' := by
  intro cols
  induction cols with
  | nil =>
    intro st _ _ _ j row hj
    exact absurd hj (by simp)
  | cons c cols ih =>
    intro st hcols hnd hst j row hj hrow
    rw [List.nodup_cons] at hnd
    rw [List.foldl_cons]
    rcases j with _ | j
    · simp only [List.getD_cons_zero] at hrow ⊢
      have hun : ∀ c2 ∈ cols, ∀ row2, row2 < rowLenF s r c2 →
          placeF tr kl s r c2 row2 ≠ placeF tr kl s r c row := by
        intro c2 hc2 row2 hrow2 heq
        have hcc := placeF_inj tr kl s r hr c2 row2 c row
          (hcols c2 (List.mem_cons_of_mem _ hc2)) (hcols c (List.mem_cons_self _ _))
          hrow2 hrow heq
        exact hnd.1 (by rw [← hcc.1]; exact hc2)
      rw [colFold_untouched tr kl s r chars cols _ _ hun]
      have hinj : ∀ r1 r2, r1 < rowLenF s r c → r2 < rowLenF s r c →
          placeF tr kl s r c r1 = placeF tr kl s r c r2 → r1 = r2 := by
        intro r1 r2 h1 h2 heq
        exact (placeF_inj tr kl s r hr c r1 c r2 (hcols c (List.mem_cons_self _ _))
          (hcols c (List.mem_cons_self _ _)) h1 h2 heq).2
      have hbound : placeF tr kl s r c row < st.1.length := by
        rw [hst]
        exact placeF_lt tr kl s r n c row hn hr (hcols c (List.mem_cons_self _ _)) hrow
      have hwr := setRF_written (fun row => placeF tr kl s r c row)
        (fun row => chars.getD (st.2 + row) '\x00') '\x00' (rowLenF s r c) st.1 row
        hrow hinj hbound
      rw [show ((colStep tr kl s r chars st c).1).getD (placeF tr kl s r c row) '\x00' =
        chars.getD (st.2 + row) '\x00' from hwr]
      simp
    · simp only [List.getD_cons_succ] at hrow ⊢
      rw [ih (colStep tr kl s r chars st c)
        (fun c2 hc2 => hcols c2 (List.mem_cons_of_mem _ hc2)) hnd.2
        (by rw [show (colStep tr kl s r chars st c).1.length =
          st.1.length from setRF_length _ _ _ _]; exact hst) j row (by simpa using hj) hrow]
      rw [List.take_succ_cons, List.map_cons, List.sum_cons]
      have harith : (colStep tr kl s r chars st c).2 +
          ((cols.take j).map (rowLenF s r)).sum + row =
          st.2 + (rowLenF s r c + ((cols.take j).map (rowLenF s r)).sum) + row := by
        show st.2 + rowLenF s r c + _ + row = _
        omega
      rw [harith]

/-! Properties of the inverse key for permutation keys. -/

theorem mem_enum_self (l : List Nat) (i : Nat) (hi : i < l.length) : (i, l[i]) ∈ l.enum := by
  apply List.mem_iff_getElem.mpr
  exact ⟨i, by simpa using hi, List.getElem_enum _ _ _⟩

theorem key_inv_eq (key : List Nat) :
    key_inv_of key = (key.enum.map (fun p => (p.2, p.1))).foldl
      (fun acc q => acc.set q.1 q.2) (List.replicate key.length 0) := by
  rw [List.foldl_map]
  rfl

theorem key_inv_length (key : List Nat) : (key_inv_of key).length = key.length := by
  rw [key_inv_eq, setPF_length, List.length_replicate]

theorem key_inv_getD (key : List Nat) (hnd : key.Nodup) (i : Nat) (hi : i < key.length)
    (hlt : key.getD i 0 < key.length) :
    (key_inv_of key).getD (key.getD i 0) 0 = i := by
  rw [key_inv_eq]
  apply setPF_getD
  · apply List.mem_map.mpr
    refine ⟨(i, key[i]), mem_enum_self key i hi, ?_⟩
    rw [List.getD_eq_getElem _ _ hi]
  · rw [List.map_map]
    have hcomp : (Prod.fst ∘ fun p : Nat × Nat => (p.2, p.1)) = Prod.snd := rfl
    rw [hcomp, List.enum_map_snd]
    exact hnd
  · rw [List.length_replicate]
    exact hlt

theorem key_perm_facts (key : List Nat) (hperm : key.Perm (List.range key.length)) :
    key.Nodup ∧
    (∀ i, i < key.length → key.getD i 0 < key.length) ∧
    (∀ j, j < key.length →
      ∃ i, i < key.length ∧ key.getD i 0 = j ∧ (key_inv_of key).getD j 0 = i) ∧
    (key_inv_of key).Perm (List.range key.length) := by
  have hnd : key.Nodup := hperm.nodup_iff.mpr (List.nodup_range _)
  have hlt : ∀ i, i < key.length → key.getD i 0 < key.length := by
    intro i hi
    rw [List.getD_eq_getElem _ _ hi]
    have : key[i] ∈ key := List.getElem_mem hi
    exact List.mem_range.mp (hperm.mem_iff.mp this)
  have hsurj : ∀ j, j < key.length →
      ∃ i, i < key.length ∧ key.getD i 0 = j ∧ (key_inv_of key).getD j 0 = i := by
    intro j hj
    have hjk : j ∈ key := hperm.mem_iff.mpr (List.mem_range.mpr hj)
    obtain ⟨i, hi, hkey⟩ := List.mem_iff_getElem.mp hjk
    have hgd : key.getD i 0 = j := by rw [List.getD_eq_getElem _ _ hi]; exact hkey
    refine ⟨i, hi, hgd, ?_⟩
    rw [← hgd]
    exact key_inv_getD key hnd i hi (by rw [hgd]; exact hj)
  refine ⟨hnd, hlt, hsurj, ?_⟩
  have hinvlen := key_inv_length key
  have hmem : ∀ x ∈ key_inv_of key, x < key.length := by
    intro x hx
    obtain ⟨t, ht, hxt⟩ := List.mem_iff_getElem.mp hx
    have ht2 : t < key.length := by rw [← hinvlen]; exact ht
    obtain ⟨i, hi, _, hgetD⟩ := hsurj t ht2
    rw [← hxt, ← List.getD_eq_getElem _ 0 ht, hgetD]
    exact hi
  have hinj : ∀ a b, a < key.length → b < key.length →
      (key_inv_of key).getD a 0 = (key_inv_of key).getD b 0 → a = b := by
    intro a b ha hb hab
    obtain ⟨ia, hia, hka, hinva⟩ := hsurj a ha
    obtain ⟨ib, hib, hkb, hinvb⟩ := hsurj b hb
    rw [hinva, hinvb] at hab
    rw [← hka, ← hkb, hab]
  have hinvnd : (key_inv_of key).Nodup := by
    rw [List.nodup_iff_injective_get]
    intro a b hab
    have h1 : (key_inv_of key).getD a.1 0 = (key_inv_of key).getD b.1 0 := by
      rw [List.getD_eq_getElem _ _ a.2, List.getD_eq_getElem _ _ b.2]
      simpa using hab
    have h2 := hinj a.1 b.1 (by rw [← hinvlen]; exact a.2) (by rw [← hinvlen]; exact b.2) h1
    exact Fin.ext h2
  exact nodup_length_perm_range _ _ hinvnd hinvlen hmem

/-- C6: for every ciphertext and permutation key of length L (with
s = n / L rows and r = n mod L long columns), columnar_inv processes the
blocks in ascending index order with one contiguous advancing cursor — block
idx occupies the cursor positions from the sum of the previous block lengths
on, the block of column col having length s+1 when col < r and s otherwise —
and the row-th character of the block of column col = key_inv[idx] lands at
output offset row*L + col in the default layout and at col*s + row +
adjustment (adjustment = col if col < r else r) in the transpose layout. -/
theorem columnar_inv_block_placement (text : List Char) (key : List Nat) (tr : Bool)
    (hkl : 0 < key.length) (hperm : key.Perm (List.range key.length)) :
    (columnar_inv text key tr).length = text.length ∧
    ∀ idx row, idx < key.length →
      row < rowLenF (text.length / key.length) (text.length % key.length)
        ((key_inv_of key).getD idx 0) →
      (columnar_inv text key tr).getD
          (placeF tr key.length (text.length / key.length) (text.length % key.length)
            ((key_inv_of key).getD idx 0) row) '\x00'
        = text.getD (blockStart (key_inv_of key) (text.length / key.length)
            (text.length % key.length) idx + row) '\x00' := by
  obtain ⟨hnd, hlt, hsurj, hinvperm⟩ := key_perm_facts key hperm
  have hn : text.length = text.length / key.length * key.length + text.length % key.length := by
    have h0 := Nat.div_add_mod text.length key.length
    have h1 : key.length * (text.length / key.length) =
        text.length / key.length * key.length := Nat.mul_comm _ _
    omega
  have hr : text.length % key.length < key.length := Nat.mod_lt _ hkl
  have hcols : ∀ c ∈ key_inv_of key, c < key.length := by
    intro c hc
    exact List.mem_range.mp (hinvperm.mem_iff.mp hc)
  have hinvnd : (key_inv_of key).Nodup := hinvperm.nodup_iff.mpr (List.nodup_range _)
  constructor
  · unfold columnar_inv
    rw [colFold_length]
    exact List.length_replicate _ _
  · intro idx row hidx hrow
    unfold columnar_inv blockStart
    have hmain := colFold_getD tr key.length (text.length / key.length)
      (text.length % key.length) text.length text hn hr (key_inv_of key)
      (List.replicate text.length '\x00', 0) hcols hinvnd
      (by exact List.length_replicate _ _)
      idx row (by rw [key_inv_length]; exact hidx) hrow
    rw [hmain]
    simp

/-- Witness: columnar_inv_block_placement applied to the concrete text
"abcde", key [1, 0] and the transpose layout. -/
theorem columnar_inv_block_placement_witness :
    (0 < ([1, 0] : List Nat).length ∧ ([1, 0] : List Nat).Perm (List.range 2)) ∧
    (columnar_inv "abcde".toList [1, 0] true).length = "abcde".toList.length :=
  ⟨⟨by decide, by decide⟩,
   (columnar_inv_block_placement "abcde".toList [1, 0] true (by decide) (by decide)).1⟩

/-! The forward columnar transposition (modelled from the spec) and the
round-trip property. -/

theorem rowLenF_r0 (s c : Nat) : rowLenF s 0 c = s := by
  unfold rowLenF
  exact if_neg (Nat.not_lt_zero c)

theorem flatMapConst_length (g : Nat → List Char) (rows : Nat) (hg : ∀ j, (g j).length = rows) :
    ∀ K, ((List.range K).flatMap g).length = K * rows := by
  intro K
  induction K with
  | zero => simp
  | succ K ih =>
    rw [List.range_succ, List.flatMap_append, List.length_append, ih]
    have h1 : ([K].flatMap g).length = rows := by
      simp [List.flatMap_cons, List.flatMap_nil, hg K]
    rw [h1]
    ring

theorem flatMapConst_getD (g : Nat → List Char) (rows : Nat) (hg : ∀ j, (g j).length = rows) :
    ∀ K idx row, idx < K → row < rows →
    ((List.range K).flatMap g).getD (idx * rows + row) '\x00' = (g idx).getD row '\x00' := by
  intro K
  induction K with
  | zero => intro idx row h; omega
  | succ K ih =>
    intro idx row hidx hrow
    rw [List.range_succ, List.flatMap_append]
    by_cases hc : idx = K
    · subst hc
      rw [List.getD_append_right _ _ _ _ (by rw [flatMapConst_length g rows hg]; omega)]
      rw [flatMapConst_length g rows hg]
      have harith : idx * rows + row - idx * rows = row := by omega
      rw [harith]
      simp [List.flatMap_cons, List.flatMap_nil]
    · have hidx2 : idx < K := by omega
      have hbound : idx * rows + row < ((List.range K).flatMap g).length := by
        rw [flatMapConst_length g rows hg]
        have h1 : (idx + 1) * rows ≤ K * rows := Nat.mul_le_mul_right rows (by omega)
        have h2 : (idx + 1) * rows = idx * rows + rows := by ring
        omega
      rw [List.getD_append _ _ _ _ hbound]
      exact ih idx row hidx2 hrow

theorem fwd_length (text : List Char) (key : List Nat) :
    (columnar_fwd text key).length = key.length * (text.length / key.length) := by
  unfold columnar_fwd
  exact flatMapConst_length _ _ (fun j => by simp) _

theorem fwd_getD (text : List Char) (key : List Nat) (idx row : Nat)
    (hidx : idx < key.length) (hrow : row < text.length / key.length) :
    (columnar_fwd text key).getD (idx * (text.length / key.length) + row) '\x00'
      = text.getD (row * key.length + key.indexOf idx) '\x00' := by
  unfold columnar_fwd
  rw [flatMapConst_getD _ _ (fun j => by simp) _ idx row hidx hrow]
  rw [List.getD_eq_getElem _ _ (by simpa using hrow)]
  simp [List.getElem_map, List.getElem_range]

theorem indexOf_eq_key_inv (key : List Nat) (hperm : key.Perm (List.range key.length))
    (j : Nat) (hj : j < key.length) : key.indexOf j = (key_inv_of key).getD j 0 := by
  obtain ⟨hnd, hlt, hsurj, _⟩ := key_perm_facts key hperm
  obtain ⟨i, hi, hkey, hinv⟩ := hsurj j hj
  rw [hinv]
  rw [List.getD_eq_getElem _ _ hi] at hkey
  rw [← hkey]
  exact List.indexOf_getElem hnd i hi

theorem blockStart_r0 (cols : List Nat) (s j : Nat) (hj : j ≤ cols.length) :
    blockStart cols s 0 j = j * s := by
  unfold blockStart
  have h1 : (cols.take j).map (rowLenF s 0) = List.replicate j s := by
    apply List.ext_getElem
    · rw [List.length_map, List.length_take, List.length_replicate]
      omega
    · intro m h1 h2
      rw [List.getElem_map, List.getElem_replicate, List.getElem_take, rowLenF_r0]
  rw [h1, List.sum_replicate, smul_eq_mul]

/-- C1 (amended): for every text whose length is a multiple of the
permutation key length, the forward columnar transposition of the spec
followed by columnar_inv with the same key recovers the text exactly in the
default layout; in the transpose layout the composition instead yields the
column-major re-flattening of the text (the character at row*L + col lands
at col*s + row), which differs from the original text in general. -/
theorem columnar_roundtrip_amended (text : List Char) (key : List Nat)
    (hkl : 0 < key.length) (hperm : key.Perm (List.range key.length))
    (hdvd : key.length ∣ text.length) :
    columnar_inv (columnar_fwd text key) key false = text ∧
    (∀ col row, col < key.length → row < text.length / key.length →
      (columnar_inv (columnar_fwd text key) key true).getD
          (col * (text.length / key.length) + row) '\x00'
        = text.getD (row * key.length + col) '\x00') := by
  obtain ⟨hnd, hlt, hsurj, hinvperm⟩ := key_perm_facts key hperm
  have hmul : key.length * (text.length / key.length) = text.length :=
    Nat.mul_div_cancel' hdvd
  have hflen : (columnar_fwd text key).length = text.length := by
    rw [fwd_length, hmul]
  have hmod : text.length % key.length = 0 := by
    obtain ⟨c, hc⟩ := hdvd
    rw [hc]
    exact Nat.mul_mod_right _ _
  have hn : text.length = text.length / key.length * key.length + 0 := by
    have h := Nat.div_add_mod text.length key.length
    have hc : key.length * (text.length / key.length) =
        text.length / key.length * key.length := Nat.mul_comm _ _
    omega
  have hcols : ∀ c ∈ key_inv_of key, c < key.length := fun c hc =>
    List.mem_range.mp (hinvperm.mem_iff.mp hc)
  have hinvnd : (key_inv_of key).Nodup := hinvperm.nodup_iff.mpr (List.nodup_range _)
  have hpoint : ∀ (tr : Bool) (col row : Nat), col < key.length →
      row < text.length / key.length →
      (columnar_inv (columnar_fwd text key) key tr).getD
          (placeF tr key.length (text.length / key.length) 0 col row) '\x00'
        = text.getD (row * key.length + col) '\x00' := by
    intro tr col row hcol hrow
    have hj : key.getD col 0 < key.length := hlt col hcol
    have hinvj : (key_inv_of key).getD (key.getD col 0) 0 = col :=
      key_inv_getD key hnd col hcol hj
    have hmain := colFold_getD tr key.length (text.length / key.length) 0 text.length
      (columnar_fwd text key) hn (by omega) (key_inv_of key)
      (List.replicate text.length '\x00', 0) hcols hinvnd
      (by exact List.length_replicate _ _) (key.getD col 0) row
      (by rw [key_inv_length]; exact hj)
      (by rw [hinvj, rowLenF_r0]; exact hrow)
    rw [hinvj] at hmain
    have hinveq : columnar_inv (columnar_fwd text key) key tr =
        ((key_inv_of key).foldl
          (colStep tr key.length (text.length / key.length) 0 (columnar_fwd text key))
          (List.replicate text.length '\x00', 0)).1 := by
      show ((key_inv_of key).foldl
          (colStep tr key.length ((columnar_fwd text key).length / key.length)
            ((columnar_fwd text key).length % key.length) (columnar_fwd text key))
          (List.replicate (columnar_fwd text key).length '\x00', 0)).1 = _
      rw [hflen, hmod]
    rw [hinveq, hmain]
    have hsum : (((key_inv_of key).take (key.getD col 0)).map
        (rowLenF (text.length / key.length) 0)).sum =
        key.getD col 0 * (text.length / key.length) := by
      have hb := blockStart_r0 (key_inv_of key) (text.length / key.length) (key.getD col 0)
        (by rw [key_inv_length]; omega)
      unfold blockStart at hb
      exact hb
    have hidx : (List.replicate text.length '\x00', (0 : Nat)).2 +
        (((key_inv_of key).take (key.getD col 0)).map
          (rowLenF (text.length / key.length) 0)).sum + row =
        key.getD col 0 * (text.length / key.length) + row := by
      rw [hsum]
      omega
    rw [hidx, fwd_getD text key (key.getD col 0) row hj hrow,
      indexOf_eq_key_inv key hperm (key.getD col 0) hj, hinvj]
  constructor
  · apply List.ext_getElem
    · have hlen1 : (columnar_inv (columnar_fwd text key) key false).length =
          (columnar_fwd text key).length := by
        unfold columnar_inv
        rw [colFold_length]
        exact List.length_replicate _ _
      rw [hlen1, hflen]
    · intro p h1 h2
      have hcol : p % key.length < key.length := Nat.mod_lt _ hkl
      have hrow : p / key.length < text.length / key.length := by
        apply (Nat.div_lt_iff_lt_mul hkl).mpr
        have hc : key.length * (text.length / key.length) =
            text.length / key.length * key.length := Nat.mul_comm _ _
        omega
      have hp := hpoint false (p % key.length) (p / key.length) hcol hrow
      have hplace : placeF false key.length (text.length / key.length) 0
          (p % key.length) (p / key.length) = p := by
        unfold placeF
        simp only [Bool.false_eq_true, if_false]
        have hdm := Nat.div_add_mod p key.length
        have hc : key.length * (p / key.length) = p / key.length * key.length :=
          Nat.mul_comm _ _
        omega
      rw [hplace] at hp
      have hidx2 : p / key.length * key.length + p % key.length = p := by
        have hdm := Nat.div_add_mod p key.length
        have hc : key.length * (p / key.length) = p / key.length * key.length :=
          Nat.mul_comm _ _
        omega
      rw [hidx2] at hp
      rw [List.getD_eq_getElem _ _ h1, List.getD_eq_getElem _ _ h2] at hp
      exact hp
  · intro col row hcol hrow
    have hp := hpoint true col row hcol hrow
    have hplace : placeF true key.length (text.length / key.length) 0 col row =
        col * (text.length / key.length) + row := by
      unfold placeF
      rw [if_pos rfl, if_neg (Nat.not_lt_zero col)]
      omega
    rw [hplace] at hp
    exact hp

/-- Witness: columnar_roundtrip_amended applied to the concrete text "abcd"
and key [1, 0]. -/
theorem columnar_roundtrip_amended_witness :
    (0 < ([1, 0] : List Nat).length ∧ ([1, 0] : List Nat).Perm (List.range 2) ∧
      ([1, 0] : List Nat).length ∣ "abcd".toList.length) ∧
    columnar_inv (columnar_fwd "abcd".toList [1, 0]) [1, 0] false = "abcd".toList :=
  ⟨⟨by decide, by decide, by decide⟩,
   (columnar_roundtrip_amended "abcd".toList [1, 0] (by decide) (by decide) (by decide)).1⟩

/-- C1 (the claim as stated is false for the transpose layout): with the
text "abcd" and the identity permutation [0, 1], the forward columnar
transposition followed by columnar_inv in the transpose layout yields "acbd",
not the original text. -/
theorem columnar_transpose_roundtrip_cex :
    columnar_inv (columnar_fwd "abcd".toList [0, 1]) [0, 1] true ≠ "abcd".toList := by decide

/-! The periodic inverse: chunk structure and the in-chunk permutation. -/

theorem getD_drop (l : List Char) (k j : Nat) (d : Char) :
    (l.drop k).getD j d = l.getD (k + j) d := by
  by_cases h : k + j < l.length
  · rw [List.getD_eq_getElem _ _ (by simp only [List.length_drop]; omega),
      List.getD_eq_getElem _ _ h]
    exact List.getElem_drop l
  · rw [List.getD_eq_default _ _ (by simp only [List.length_drop]; omega),
      List.getD_eq_default _ _ (by omega)]

theorem getD_take (l : List Char) (k j : Nat) (d : Char) (hj : j < k) :
    (l.take k).getD j d = l.getD j d := by
  by_cases h : j < l.length
  · rw [List.getD_eq_getElem _ _ (by simp only [List.length_take]; omega),
      List.getD_eq_getElem _ _ h]
    exact List.getElem_take _
  · rw [List.getD_eq_default _ _ (by simp only [List.length_take]; omega),
      List.getD_eq_default _ _ (by omega)]

theorem chunksOfAux_congr (p : Nat) (hp : 0 < p) : ∀ f1 f2 l, l.length ≤ f1 → l.length ≤ f2 →
    chunksOfAux p f1 l = chunksOfAux p f2 l := by
  intro f1
  induction f1 with
  | zero =>
    intro f2 l h1 h2
    cases l with
    | nil => cases f2 <;> rfl
    | cons a l => simp at h1
  | succ f1 ih =>
    intro f2 l h1 h2
    cases l with
    | nil => cases f2 <;> rfl
    | cons a l =>
      cases f2 with
      | zero => simp at h2
      | succ f2 =>
        show ((a :: l).take p) :: chunksOfAux p f1 ((a :: l).drop p) =
          ((a :: l).take p) :: chunksOfAux p f2 ((a :: l).drop p)
        congr 1
        apply ih
        · simp only [List.length_drop, List.length_cons] at h1 ⊢
          omega
        · simp only [List.length_drop, List.length_cons] at h2 ⊢
          omega

theorem chunksOf_nil (p : Nat) : chunksOf p [] = [] := by
  unfold chunksOf
  split
  · rfl
  · rfl

theorem chunksOf_cons (p : Nat) (hp : 0 < p) (a : Char) (l : List Char) :
    chunksOf p (a :: l) = (a :: l).take p :: chunksOf p ((a :: l).drop p) := by
  unfold chunksOf
  rw [if_neg (by omega), if_neg (by omega)]
  show ((a :: l).take p) :: chunksOfAux p l.length ((a :: l).drop p) = _
  congr 1
  apply chunksOfAux_congr p hp
  · simp only [List.length_drop, List.length_cons]
    omega
  · simp only [List.length_drop, List.length_cons]
    omega

theorem permChunkT_eq (key : List Nat) (chunk : List Char) :
    permChunkT key chunk = (key.enum.map (fun p => (p.2, chunk.getD p.1 '\x00'))).foldl
      (fun acc q => acc.set q.1 q.2) chunk := by
  rw [List.foldl_map]
  rfl

theorem permChunkT_length (key : List Nat) (chunk : List Char) :
    (permChunkT key chunk).length = chunk.length := by
  rw [permChunkT_eq, setPF_length]

theorem permChunkT_getD (key : List Nat) (chunk : List Char) (hnd : key.Nodup)
    (i : Nat) (hi : i < key.length) (hki : key.getD i 0 < chunk.length) :
    (permChunkT key chunk).getD (key.getD i 0) '\x00' = chunk.getD i '\x00' := by
  rw [permChunkT_eq]
  apply setPF_getD
  · apply List.mem_map.mpr
    refine ⟨(i, key[i]), mem_enum_self key i hi, ?_⟩
    show (key[i], chunk.getD i '\x00') = (key.getD i 0, chunk.getD i '\x00')
    rw [List.getD_eq_getElem _ _ hi]
  · rw [List.map_map]
    have hcomp : (Prod.fst ∘ fun p : Nat × Nat => (p.2, chunk.getD p.1 '\x00')) = Prod.snd := rfl
    rw [hcomp, List.enum_map_snd]
    exact hnd
  · exact hki

theorem applyPermChunk_some (key : List Nat) (chunk : List Char)
    (hb : ∀ k ∈ key, k < chunk.length) :
    applyPermChunk key chunk = some (permChunkT key chunk) := by
  unfold applyPermChunk permChunkT
  have hgen : ∀ (ps : List (Nat × Nat)) (cv : List Char), cv.length = chunk.length →
      (∀ q ∈ ps, q.2 < chunk.length) →
      ps.foldl (fun acc p => acc.bind (fun cv2 =>
        if p.2 < cv2.length then some (cv2.set p.2 (chunk.getD p.1 '\x00')) else none))
        (some cv)
      = some (ps.foldl (fun cv2 p => cv2.set p.2 (chunk.getD p.1 '\x00')) cv) := by
    intro ps
    induction ps with
    | nil => intro cv _ _; rfl
    | cons q ps ih =>
      intro cv hcv hq
      simp only [List.foldl_cons]
      have hstep : (some cv).bind (fun cv2 =>
          if q.2 < cv2.length then some (cv2.set q.2 (chunk.getD q.1 '\x00')) else none)
          = some (cv.set q.2 (chunk.getD q.1 '\x00')) := by
        show (if q.2 < cv.length then some (cv.set q.2 (chunk.getD q.1 '\x00')) else none) = _
        rw [if_pos (by rw [hcv]; exact hq q (List.mem_cons_self _ _))]
      rw [hstep]
      exact ih (cv.set q.2 (chunk.getD q.1 '\x00')) (by rw [List.length_set]; exact hcv)
        (fun p hp => hq p (List.mem_cons_of_mem _ hp))
  apply hgen key.enum chunk rfl
  intro q hq
  have h2 : q.2 ∈ key := by
    have h3 := List.mem_map_of_mem Prod.snd hq
    rwa [List.enum_map_snd] at h3
  exact hb q.2 h2

theorem periodic_fold_eq (key : List Nat) (hb : ∀ k ∈ key, k < key.length) :
    ∀ (chunks : List (List Char)) (acc : List Char),
    chunks.foldl (fun acc c => acc.bind (fun result =>
      if c.length = key.length then (applyPermChunk key c).map (fun cv => result ++ cv)
      else some (result ++ c))) (some acc)
    = some (acc ++
        (chunks.map (fun c => if c.length = key.length then permChunkT key c else c)).flatten) := by
  intro chunks
  induction chunks with
  | nil => intro acc; simp
  | cons c chunks ih =>
    intro acc
    simp only [List.foldl_cons, List.map_cons, List.flatten_cons]
    by_cases hc : c.length = key.length
    · have hbc : ∀ k ∈ key, k < c.length := by
        rw [hc]
        exact hb
      have hstep : (some acc).bind (fun result =>
          if c.length = key.length then (applyPermChunk key c).map (fun cv => result ++ cv)
          else some (result ++ c)) = some (acc ++ permChunkT key c) := by
        show (if c.length = key.length then
            (applyPermChunk key c).map (fun cv => acc ++ cv) else some (acc ++ c)) = _
        rw [if_pos hc, applyPermChunk_some key c hbc]
        rfl
      rw [hstep, ih]
      rw [if_pos hc, List.append_assoc]
    · have hstep : (some acc).bind (fun result =>
          if c.length = key.length then (applyPermChunk key c).map (fun cv => result ++ cv)
          else some (result ++ c)) = some (acc ++ c) := by
        show (if c.length = key.length then
            (applyPermChunk key c).map (fun cv => acc ++ cv) else some (acc ++ c)) = _
        rw [if_neg hc]
      rw [hstep, ih]
      rw [if_neg hc, List.append_assoc]

theorem periodicRun_cons (key : List Nat) (hkl : 0 < key.length) (text : List Char)
    (hlen : key.length ≤ text.length) :
    periodicRun key text =
      permChunkT key (text.take key.length) ++ periodicRun key (text.drop key.length) := by
  unfold periodicRun
  cases text with
  | nil =>
    simp only [List.length_nil] at hlen
    omega
  | cons a t =>
    rw [chunksOf_cons _ hkl, List.map_cons, List.flatten_cons]
    rw [if_pos (by simp only [List.length_take, List.length_cons] at hlen ⊢; omega)]

theorem periodicRun_small (key : List Nat) (hkl : 0 < key.length) (text : List Char)
    (hlen : text.length < key.length) : periodicRun key text = text := by
  unfold periodicRun
  cases text with
  | nil =>
    rw [chunksOf_nil]
    rfl
  | cons a t =>
    simp only [List.length_cons] at hlen
    rw [chunksOf_cons _ hkl, List.take_of_length_le (by simp only [List.length_cons]; omega),
      List.drop_eq_nil_of_le (by simp only [List.length_cons]; omega), chunksOf_nil]
    rw [List.map_cons, List.map_nil, List.flatten_cons]
    rw [if_neg (by simp only [List.length_cons]; omega)]
    simp

theorem periodicRun_length (key : List Nat) (hkl : 0 < key.length) :
    ∀ text : List Char, (periodicRun key text).length = text.length := by
  have H : ∀ n, ∀ text : List Char, text.length = n →
      (periodicRun key text).length = text.length := by
    intro n
    induction n using Nat.strong_induction_on with
    | _ n ih =>
      intro text htext
      by_cases hc : key.length ≤ text.length
      · rw [periodicRun_cons key hkl text hc, List.length_append, permChunkT_length]
        rw [ih (text.drop key.length).length
          (by simp only [List.length_drop]; omega) _ rfl]
        simp only [List.length_take, List.length_drop]
        omega
      · rw [periodicRun_small key hkl text (by omega)]
  intro text
  exact H text.length text rfl

theorem periodicRun_complete (key : List Nat) (hkl : 0 < key.length) (hnd : key.Nodup)
    (hb : ∀ k ∈ key, k < key.length) :
    ∀ m (text : List Char) i, i < key.length → (m + 1) * key.length ≤ text.length →
    (periodicRun key text).getD (m * key.length + key.getD i 0) '\x00'
      = text.getD (m * key.length + i) '\x00' := by
  intro m
  induction m with
  | zero =>
    intro text i hi hlen
    have hlen2 : key.length ≤ text.length := by omega
    clear hlen
    rename' hlen2 => hlen
    simp only [Nat.zero_mul, Nat.zero_add]
    rw [periodicRun_cons key hkl text hlen]
    have htl : (text.take key.length).length = key.length := by
      simp only [List.length_take]
      omega
    have hkey : key.getD i 0 < key.length := by
      rw [List.getD_eq_getElem _ _ hi]
      exact hb _ (List.getElem_mem hi)
    rw [List.getD_append _ _ _ _ (by rw [permChunkT_length, htl]; exact hkey)]
    rw [permChunkT_getD key _ hnd i hi (by rw [htl]; exact hkey)]
    exact getD_take text key.length i '\x00' hi
  | succ m ih =>
    intro text i hi hlen
    have hmm : (m + 1 + 1) * key.length = (m + 1) * key.length + key.length := by ring
    have hmm2 : (m + 1) * key.length = m * key.length + key.length := by ring
    have hge : key.length ≤ text.length := by omega
    rw [periodicRun_cons key hkl text hge]
    have htl : (permChunkT key (text.take key.length)).length = key.length := by
      rw [permChunkT_length]
      simp only [List.length_take]
      omega
    rw [List.getD_append_right _ _ _ _ (by rw [htl]; omega)]
    rw [htl]
    have harith : (m + 1) * key.length + key.getD i 0 - key.length =
        m * key.length + key.getD i 0 := by omega
    rw [harith]
    rw [ih (text.drop key.length) i hi
      (by simp only [List.length_drop]; omega)]
    rw [getD_drop]
    have harith2 : key.length + (m * key.length + i) = (m + 1) * key.length + i := by omega
    rw [harith2]

theorem periodicRun_tail (key : List Nat) (hkl : 0 < key.length) :
    ∀ (text : List Char) j, (text.length / key.length) * key.length ≤ j →
    (periodicRun key text).getD j '\x00' = text.getD j '\x00' := by
  have H : ∀ n, ∀ text : List Char, text.length = n → ∀ j,
      (text.length / key.length) * key.length ≤ j →
      (periodicRun key text).getD j '\x00' = text.getD j '\x00' := by
    intro n
    induction n using Nat.strong_induction_on with
    | _ n ih =>
    intro text htext j hj
    by_cases hc : key.length ≤ text.length
    · have hdiv : 0 < text.length / key.length := Nat.div_pos hc hkl
      have h1 : 1 * key.length ≤ (text.length / key.length) * key.length :=
        Nat.mul_le_mul_right _ (by omega)
      have hjk : key.length ≤ j := by omega
      rw [periodicRun_cons key hkl text hc]
      have htl : (permChunkT key (text.take key.length)).length = key.length := by
        rw [permChunkT_length]
        simp only [List.length_take]
        omega
      rw [List.getD_append_right _ _ _ _ (by rw [htl]; exact hjk), htl]
      have hquot : (text.length - key.length) / key.length = text.length / key.length - 1 := by
        have h2 : text.length - key.length + key.length = text.length := by omega
        have h3 := Nat.add_div_right (text.length - key.length) hkl
        rw [h2] at h3
        omega
      have hcond : ((text.drop key.length).length / key.length) * key.length ≤ j - key.length := by
        simp only [List.length_drop]
        rw [hquot]
        have h4 : (text.length / key.length - 1) * key.length =
            (text.length / key.length) * key.length - 1 * key.length := Nat.sub_mul _ _ _
        omega
      rw [ih (text.drop key.length).length (by simp only [List.length_drop]; omega) _ rfl
        (j - key.length) hcond]
      rw [getD_drop]
      have harith : key.length + (j - key.length) = j := by omega
      rw [harith]
    · rw [periodicRun_small key hkl text (by omega)]
  intro text j hj
  exact H text.length text rfl j hj

/-- C7: for every text and permutation key of length P at least 1, the
periodic inverse cuts the text into consecutive chunks of length P; in each
complete chunk the character at chunk position i moves to chunk position
key[i], and the trailing chunk shorter than P (the positions from
(n / P) * P on) is passed through completely unmodified. -/
theorem periodic_inv_chunk_permutation (text : List Char) (key : List Nat)
    (hkl : 0 < key.length) (hperm : key.Perm (List.range key.length)) :
    ∃ out, periodic_inv text key = some out ∧ out.length = text.length ∧
      (∀ m i, i < key.length → (m + 1) * key.length ≤ text.length →
        out.getD (m * key.length + key.getD i 0) '\x00'
          = text.getD (m * key.length + i) '\x00') ∧
      (∀ j, (text.length / key.length) * key.length ≤ j →
        out.getD j '\x00' = text.getD j '\x00') := by
  obtain ⟨hnd, _, _, _⟩ := key_perm_facts key hperm
  have hb : ∀ k ∈ key, k < key.length := by
    intro k hk
    exact List.mem_range.mp (hperm.mem_iff.mp hk)
  refine ⟨periodicRun key text, ?_, periodicRun_length key hkl text,
    fun m i hi hlen => periodicRun_complete key hkl hnd hb m text i hi hlen,
    fun j hj => periodicRun_tail key hkl text j hj⟩
  unfold periodic_inv periodicRun
  rw [if_neg (by omega), periodic_fold_eq key hb, List.nil_append]

/-- Witness: periodic_inv_chunk_permutation applied to the concrete text
"abcde" and key [1, 0]. -/
theorem periodic_inv_chunk_permutation_witness :
    (0 < ([1, 0] : List Nat).length ∧ ([1, 0] : List Nat).Perm (List.range 2)) ∧
    ∃ out, periodic_inv "abcde".toList [1, 0] = some out ∧
      out.length = "abcde".toList.length := by
  refine ⟨⟨by decide, by decide⟩, ?_⟩
  obtain ⟨out, h1, h2, _, _⟩ :=
    periodic_inv_chunk_permutation "abcde".toList [1, 0] (by decide) (by decide)
  exact ⟨out, h1, h2⟩

/-! Multiset preservation: the placements cover the output bijectively, and
the cursor covers the ciphertext bijectively, so both inverses permute the
characters of their input. -/

theorem flatMap_congr_left {α β : Type} (l : List α) (f g : α → List β)
    (h : ∀ x ∈ l, f x = g x) : l.flatMap f = l.flatMap g := by
  induction l with
  | nil => rfl
  | cons x l ih =>
    rw [List.flatMap_cons, List.flatMap_cons, h x (List.mem_cons_self _ _),
      ih (fun y hy => h y (List.mem_cons_of_mem _ hy))]

theorem sum_rowLenF_range (s r : Nat) : ∀ kl,
    ((List.range kl).map (rowLenF s r)).sum = kl * s + min r kl := by
  intro kl
  induction kl with
  | zero => simp
  | succ kl ih =>
    rw [List.range_succ, List.map_append, List.sum_append, ih]
    simp only [List.map_cons, List.map_nil, List.sum_cons, List.sum_nil]
    unfold rowLenF
    have h1 : (kl + 1) * s = kl * s + s := by ring
    by_cases hc : kl < r
    · rw [if_pos hc]
      have hmin1 : min r (kl + 1) = min r kl + 1 := by omega
      omega
    · rw [if_neg hc]
      have hmin1 : min r (kl + 1) = min r kl := by omega
      omega

theorem sum_rowLenF_cols (s r kl : Nat) (cols : List Nat)
    (hperm : cols.Perm (List.range kl)) :
    (cols.map (rowLenF s r)).sum = kl * s + min r kl := by
  rw [List.Perm.sum_eq (List.Perm.map (rowLenF s r) hperm)]
  exact sum_rowLenF_range s r kl

theorem map_range_getD (cols : List Nat) (f : Nat → Nat) :
    (List.range cols.length).map (fun j => f (cols.getD j 0)) = cols.map f := by
  apply List.ext_getElem
  · simp
  · intro m h1 h2
    simp only [List.getElem_map, List.getElem_range]
    rw [List.getD_eq_getElem _ _ (by simpa using h2)]

theorem map_take_getD (cols : List Nat) (f : Nat → Nat) (j : Nat) (hj : j ≤ cols.length) :
    (List.range j).map (fun m => f (cols.getD m 0)) = (cols.take j).map f := by
  apply List.ext_getElem
  · simp only [List.length_map, List.length_range, List.length_take]
    omega
  · intro m h1 h2
    simp only [List.getElem_map, List.getElem_range, List.getElem_take]
    rw [List.getD_eq_getElem _ _ (by simp only [List.length_map, List.length_take] at h2; omega)]

theorem flatMap_blocks_range (L : Nat → Nat) : ∀ K,
    (List.range K).flatMap (fun j =>
      (List.range (L j)).map (fun row => ((List.range j).map L).sum + row))
    = List.range (((List.range K).map L).sum) := by
  intro K
  induction K with
  | zero => rfl
  | succ K ih =>
    rw [List.range_succ, List.flatMap_append, ih, List.map_append, List.sum_append]
    simp only [List.map_cons, List.map_nil, List.sum_cons, List.sum_nil, List.flatMap_cons,
      List.flatMap_nil, List.append_nil, Nat.add_zero]
    rw [List.range_add]

theorem pairsM_mem (cols : List Nat) (s r : Nat) (p : Nat × Nat) :
    p ∈ pairsM cols s r ↔ p.1 < cols.length ∧ p.2 < rowLenF s r (cols.getD p.1 0) := by
  unfold pairsM
  rw [List.mem_flatMap]
  constructor
  · rintro ⟨j, hj, hp⟩
    rw [List.mem_range] at hj
    obtain ⟨row, hrow, heq⟩ := List.mem_map.mp hp
    rw [List.mem_range] at hrow
    rw [← heq]
    exact ⟨hj, hrow⟩
  · rintro ⟨h1, h2⟩
    refine ⟨p.1, List.mem_range.mpr h1, ?_⟩
    exact List.mem_map.mpr ⟨p.2, List.mem_range.mpr h2, rfl⟩

theorem pairsM_length (cols : List Nat) (s r : Nat) :
    (pairsM cols s r).length =
      ((List.range cols.length).map (fun j => rowLenF s r (cols.getD j 0))).sum := by
  unfold pairsM
  rw [List.length_flatMap]
  congr 1
  apply List.map_congr_left
  intro j hj
  simp [Function.comp]

theorem pairsM_nodup (cols : List Nat) (s r : Nat) : (pairsM cols s r).Nodup := by
  unfold pairsM
  rw [List.nodup_flatMap]
  constructor
  · intro j hj
    apply List.Nodup.map_on
    · intro x hx y hy hxy
      simpa using congrArg Prod.snd hxy
    · exact List.nodup_range _
  · apply List.Pairwise.imp ?_ (List.pairwise_lt_range _)
    intro a b hab p hpa hpb
    obtain ⟨x, _, hx⟩ := List.mem_map.mp hpa
    obtain ⟨y, _, hy⟩ := List.mem_map.mp hpb
    have hyx : (a, x) = (b, y) := by rw [hx, ← hy]
    have : a = b := by simpa using congrArg Prod.fst hyx
    omega

theorem mapCursor_eq_range (cols : List Nat) (s r kl : Nat)
    (hperm : cols.Perm (List.range kl)) (hr : min r kl = r) :
    (pairsM cols s r).map (fun p => blockStart cols s r p.1 + p.2)
      = List.range (kl * s + r) := by
  have hK : cols.length = kl := hperm.length_eq.trans (List.length_range kl)
  subst hK
  unfold pairsM blockStart
  rw [List.map_flatMap]
  have hstep : ∀ j ∈ List.range cols.length,
      List.map (fun p => ((cols.take p.1).map (rowLenF s r)).sum + p.2)
        ((List.range (rowLenF s r (cols.getD j 0))).map (fun row => (j, row)))
      = (List.range ((fun m => rowLenF s r (cols.getD m 0)) j)).map
          (fun row => ((List.range j).map (fun m => rowLenF s r (cols.getD m 0))).sum + row) := by
    intro j hj
    rw [List.map_map]
    apply List.map_congr_left
    intro row hrow
    simp only [Function.comp]
    rw [map_take_getD cols (rowLenF s r) j (by rw [List.mem_range] at hj; omega)]
  rw [flatMap_congr_left _ _ _ hstep]
  have hsum2 : ((List.range cols.length).map (fun m => rowLenF s r (cols.getD m 0))).sum =
      cols.length * s + r := by
    rw [map_range_getD cols (rowLenF s r), sum_rowLenF_cols s r cols.length cols hperm, hr]
  rw [flatMap_blocks_range, hsum2]

theorem mapPlace_perm (tr : Bool) (kl s r n : Nat) (cols : List Nat)
    (hperm : cols.Perm (List.range kl)) (hn : n = s * kl + r) (hr : r < kl) :
    ((pairsM cols s r).map (fun p => placeF tr kl s r (cols.getD p.1 0) p.2)).Perm
      (List.range n) := by
  have hK : cols.length = kl := hperm.length_eq.trans (List.length_range kl)
  have hcols : ∀ c ∈ cols, c < kl := fun c hc => List.mem_range.mp (hperm.mem_iff.mp hc)
  have hnd : cols.Nodup := hperm.nodup_iff.mpr (List.nodup_range _)
  apply nodup_length_perm_range
  · apply List.Nodup.map_on
    · intro p hp q hq hpq
      rw [pairsM_mem] at hp hq
      have h1 := placeF_inj tr kl s r hr (cols.getD p.1 0) p.2 (cols.getD q.1 0) q.2
        (hcols _ (by rw [List.getD_eq_getElem _ _ hp.1]; exact List.getElem_mem _))
        (hcols _ (by rw [List.getD_eq_getElem _ _ hq.1]; exact List.getElem_mem _))
        hp.2 hq.2 hpq
      have h2 : p.1 = q.1 := nodup_getD_inj cols hnd hp.1 hq.1 h1.1
      exact Prod.ext h2 h1.2
    · exact pairsM_nodup cols s r
  · rw [List.length_map, pairsM_length]
    rw [map_range_getD, sum_rowLenF_cols s r kl cols hperm]
    have hmin : min r kl = r := by omega
    have hcomm : s * kl = kl * s := Nat.mul_comm s kl
    omega
  · intro x hx
    obtain ⟨p, hp, hx⟩ := List.mem_map.mp hx
    rw [pairsM_mem] at hp
    rw [← hx]
    apply placeF_lt tr kl s r n _ _ hn hr
    · apply hcols
      rw [List.getD_eq_getElem _ _ hp.1]
      exact List.getElem_mem _
    · exact hp.2

theorem columnar_inv_perm (text : List Char) (key : List Nat) (tr : Bool)
    (hkl : 0 < key.length) (hperm : key.Perm (List.range key.length)) :
    (columnar_inv text key tr).Perm text := by
  obtain ⟨hnd, hlt, hsurj, hinvperm⟩ := key_perm_facts key hperm
  have hn : text.length =
      text.length / key.length * key.length + text.length % key.length := by
    have h0 := Nat.div_add_mod text.length key.length
    have h1 : key.length * (text.length / key.length) =
        text.length / key.length * key.length := Nat.mul_comm _ _
    omega
  have hr : text.length % key.length < key.length := Nat.mod_lt _ hkl
  have hcols : ∀ c ∈ key_inv_of key, c < key.length := fun c hc =>
    List.mem_range.mp (hinvperm.mem_iff.mp hc)
  have hinvnd : (key_inv_of key).Nodup := hinvperm.nodup_iff.mpr (List.nodup_range _)
  have hout_fold : columnar_inv text key tr =
      ((key_inv_of key).foldl
        (colStep tr key.length (text.length / key.length) (text.length % key.length) text)
        (List.replicate text.length '\x00', 0)).1 := rfl
  have houtlen : (columnar_inv text key tr).length = text.length := by
    rw [hout_fold, colFold_length]
    exact List.length_replicate _ _
  have e1 : (List.range text.length).map
      (fun i => (columnar_inv text key tr).getD i '\x00') = columnar_inv text key tr := by
    have h1 := list_eq_map_getD_range (columnar_inv text key tr) '\x00'
    rw [houtlen] at h1
    exact h1
  have hpoint : ∀ p ∈ pairsM (key_inv_of key) (text.length / key.length)
      (text.length % key.length),
      (columnar_inv text key tr).getD
        (placeF tr key.length (text.length / key.length) (text.length % key.length)
          ((key_inv_of key).getD p.1 0) p.2) '\x00'
      = text.getD (blockStart (key_inv_of key) (text.length / key.length)
          (text.length % key.length) p.1 + p.2) '\x00' := by
    intro p hp
    rw [pairsM_mem] at hp
    have hmain := colFold_getD tr key.length (text.length / key.length)
      (text.length % key.length) text.length text hn hr (key_inv_of key)
      (List.replicate text.length '\x00', 0) hcols hinvnd
      (by exact List.length_replicate _ _) p.1 p.2 hp.1 hp.2
    rw [hout_fold, hmain]
    unfold blockStart
    simp
  have hplacePerm := mapPlace_perm tr key.length (text.length / key.length)
    (text.length % key.length) text.length (key_inv_of key) hinvperm hn hr
  have hP1 : (columnar_inv text key tr).Perm
      ((pairsM (key_inv_of key) (text.length / key.length) (text.length % key.length)).map
        (fun p => (columnar_inv text key tr).getD
          (placeF tr key.length (text.length / key.length) (text.length % key.length)
            ((key_inv_of key).getD p.1 0) p.2) '\x00')) := by
    have h2 := List.Perm.map (fun i => (columnar_inv text key tr).getD i '\x00')
      hplacePerm.symm
    rw [List.map_map] at h2
    have h3 : (List.range text.length).map
        (fun i => (columnar_inv text key tr).getD i '\x00') = columnar_inv text key tr := e1
    rw [h3] at h2
    exact h2
  have hP2 : ((pairsM (key_inv_of key) (text.length / key.length)
        (text.length % key.length)).map
      (fun p => (columnar_inv text key tr).getD
        (placeF tr key.length (text.length / key.length) (text.length % key.length)
          ((key_inv_of key).getD p.1 0) p.2) '\x00'))
      = ((pairsM (key_inv_of key) (text.length / key.length)
          (text.length % key.length)).map
        (fun p => text.getD (blockStart (key_inv_of key) (text.length / key.length)
          (text.length % key.length) p.1 + p.2) '\x00')) :=
    List.map_congr_left hpoint
  have hcursor := mapCursor_eq_range (key_inv_of key) (text.length / key.length)
    (text.length % key.length) key.length hinvperm (by omega)
  have hP3 : ((pairsM (key_inv_of key) (text.length / key.length)
        (text.length % key.length)).map
      (fun p => text.getD (blockStart (key_inv_of key) (text.length / key.length)
        (text.length % key.length) p.1 + p.2) '\x00')) = text := by
    have hm : ((pairsM (key_inv_of key) (text.length / key.length)
          (text.length % key.length)).map
        (fun p => text.getD (blockStart (key_inv_of key) (text.length / key.length)
          (text.length % key.length) p.1 + p.2) '\x00'))
        = ((pairsM (key_inv_of key) (text.length / key.length)
            (text.length % key.length)).map
          (fun p => blockStart (key_inv_of key) (text.length / key.length)
            (text.length % key.length) p.1 + p.2)).map
          (fun i => text.getD i '\x00') := by
      rw [List.map_map]
      rfl
    rw [hm, hcursor]
    have hn2 : key.length * (text.length / key.length) + text.length % key.length =
        text.length := by
      have := Nat.div_add_mod text.length key.length
      omega
    rw [hn2]
    exact list_eq_map_getD_range text '\x00'
  rw [hP2, hP3] at hP1
  exact hP1

theorem permChunkT_perm (key : List Nat) (chunk : List Char)
    (hperm : key.Perm (List.range key.length)) (hlen : chunk.length = key.length) :
    (permChunkT key chunk).Perm chunk := by
  have hnd : key.Nodup := hperm.nodup_iff.mpr (List.nodup_range _)
  have hb : ∀ k ∈ key, k < key.length := fun k hk =>
    List.mem_range.mp (hperm.mem_iff.mp hk)
  have hcvlen : (permChunkT key chunk).length = chunk.length := permChunkT_length key chunk
  have hkey_eq : (List.range key.length).map (fun i => key.getD i 0) = key :=
    list_eq_map_getD_range key 0
  have hchunk : chunk = key.map (fun k => (permChunkT key chunk).getD k '\x00') := by
    apply List.ext_getElem
    · rw [List.length_map]
      omega
    · intro i h1i h2i
      rw [List.getElem_map]
      have hi : i < key.length := by
        simpa using h2i
      have hkd : key.getD i 0 < chunk.length := by
        rw [hlen, List.getD_eq_getElem _ _ hi]
        exact hb _ (List.getElem_mem hi)
      have hgd := permChunkT_getD key chunk hnd i hi hkd
      have e1 : key.getD i 0 = key[i] := List.getD_eq_getElem _ _ hi
      rw [← e1, hgd, List.getD_eq_getElem _ _ h1i]
  have h2 : (key.map (fun k => (permChunkT key chunk).getD k '\x00')).Perm
      ((List.range key.length).map (fun k => (permChunkT key chunk).getD k '\x00')) :=
    List.Perm.map _ hperm
  have h3 : (List.range key.length).map (fun k => (permChunkT key chunk).getD k '\x00')
      = permChunkT key chunk := by
    have h4 := list_eq_map_getD_range (permChunkT key chunk) '\x00'
    rw [hcvlen, hlen] at h4
    exact h4
  rw [h3] at h2
  conv_rhs => rw [hchunk]
  exact h2.symm

theorem flatten_map_perm (g : List Char → List Char) :
    ∀ (chunks : List (List Char)), (∀ c ∈ chunks, (g c).Perm c) →
    ((chunks.map g).flatten).Perm chunks.flatten := by
  intro chunks
  induction chunks with
  | nil => intro _; exact List.Perm.refl _
  | cons c chunks ih =>
    intro h
    rw [List.map_cons, List.flatten_cons, List.flatten_cons]
    exact List.Perm.append (h c (List.mem_cons_self _ _))
      (ih (fun x hx => h x (List.mem_cons_of_mem _ hx)))

theorem flatten_chunksOf (p : Nat) (hp : 0 < p) :
    ∀ text : List Char, (chunksOf p text).flatten = text := by
  have H : ∀ n, ∀ text : List Char, text.length = n → (chunksOf p text).flatten = text := by
    intro n
    induction n using Nat.strong_induction_on with
    | _ n ih =>
      intro text htext
      cases text with
      | nil => rw [chunksOf_nil]; rfl
      | cons a t =>
        rw [chunksOf_cons p hp, List.flatten_cons]
        rw [ih ((a :: t).drop p).length
          (by simp only [List.length_drop, List.length_cons] at htext ⊢; omega) _ rfl]
        exact List.take_append_drop p (a :: t)
  intro text
  exact H text.length text rfl

theorem periodicRun_perm (key : List Nat) (hkl : 0 < key.length)
    (hperm : key.Perm (List.range key.length)) (text : List Char) :
    (periodicRun key text).Perm text := by
  unfold periodicRun
  have hpieces : ∀ c ∈ chunksOf key.length text,
      ((fun c => if c.length = key.length then permChunkT key c else c) c).Perm c := by
    intro c hc
    show (if c.length = key.length then permChunkT key c else c).Perm c
    by_cases hlen : c.length = key.length
    · rw [if_pos hlen]
      exact permChunkT_perm key c hperm hlen
    · rw [if_neg hlen]
  have h1 := flatten_map_perm (fun c => if c.length = key.length then permChunkT key c else c)
    (chunksOf key.length text) hpieces
  rw [flatten_chunksOf key.length hkl text] at h1
  exact h1

/-- C10: for every text and every permutation key of length L at least 1,
both transposition inverses preserve the multiset of characters:
columnar_inv in the default and the transpose layout, and periodic_inv
(which succeeds on such keys), each return a string of the same length as
the input that is a rearrangement of exactly the input characters. -/
theorem transposition_inverses_preserve_chars (text : List Char) (key : List Nat)
    (hkl : 0 < key.length) (hperm : key.Perm (List.range key.length)) :
    ((columnar_inv text key false).Perm text ∧
      (columnar_inv text key false).length = text.length) ∧
    ((columnar_inv text key true).Perm text ∧
      (columnar_inv text key true).length = text.length) ∧
    (∃ out, periodic_inv text key = some out ∧ out.Perm text ∧
      out.length = text.length) := by
  have hb : ∀ k ∈ key, k < key.length := fun k hk =>
    List.mem_range.mp (hperm.mem_iff.mp hk)
  refine ⟨⟨columnar_inv_perm text key false hkl hperm,
      (columnar_inv_perm text key false hkl hperm).length_eq⟩,
    ⟨columnar_inv_perm text key true hkl hperm,
      (columnar_inv_perm text key true hkl hperm).length_eq⟩,
    periodicRun key text, ?_, periodicRun_perm key hkl hperm text,
    periodicRun_length key hkl text⟩
  unfold periodic_inv periodicRun
  rw [if_neg (by omega), periodic_fold_eq key hb, List.nil_append]

/-- Witness: transposition_inverses_preserve_chars applied to the concrete
text "abc" and key [1, 0]. -/
theorem transposition_inverses_preserve_chars_witness :
    (0 < ([1, 0] : List Nat).length ∧ ([1, 0] : List Nat).Perm (List.range 2)) ∧
    (columnar_inv "abc".toList [1, 0] false).length = "abc".toList.length :=
  ⟨⟨by decide, by decide⟩,
   (transposition_inverses_preserve_chars "abc".toList [1, 0] (by decide) (by decide)).1.2⟩

end CipherSolver
